import Mathlib

/-!
# Verification of the `bios2net` point-cloud data pipeline (`fold_dataset.py`)

This file gives a shallow embedding of the data pipeline implemented by
`PFRDataset` in `src/fold_dataset.py` and settles the frozen claims about it.

Modelling conventions:
* numpy float arrays are modelled as `List (List ℚ)` (rows = points); the float
  values are modelled exactly by rationals.  `np.sqrt` (used only inside
  `pc_normalize`, whose numeric output no claim inspects) is a function
  parameter `sqrtFn : ℚ → ℚ` threaded through the pipeline.
* Python exceptions (`ValueError` from `int(...)`, from `np.random.choice` on an
  empty population, from `np.zeros` with a negative dimension, `IndexError`
  from out-of-range indexing, `KeyError` from dict lookup) are modelled by
  `Option`: a raising execution is `none`.
* Randomness (`np.random.choice`, `np.random.shuffle`, the augmentation draws)
  is modelled by explicit draw parameters; the documented contracts of the
  numpy primitives (e.g. `choice` with `replace=False` returns distinct
  in-range indices) appear as hypotheses of the theorems.
* The file system is abstracted: a sample file is an `Entry` carrying the class
  name (the directory component the code extracts), the path used for the
  lexicographic `sorted(glob(...))` pre-sort, and the decoded `np.load` matrix.
* Python's `sorted` is a stable sort whose comparisons use `<` on the key
  values; it is modelled by a stable insertion sort `isort` over a boolean
  "may stay before" relation `pyLe lt a b = !(lt b a)`.
-/

/-! ## Characters and Python string / list comparison -/

/-- Code-point view of a string (Python compares strings by code points). -/
def strK (s : String) : List Nat := s.data.map Char.toNat

/-- Strict lexicographic order on `List Nat`, as Python compares lists and
(code-point lists of) strings. -/
def nlLtB : List Nat → List Nat → Bool
  | [], [] => false
  | [], _ :: _ => true
  | _ :: _, [] => false
  | a :: as, b :: bs => decide (a < b) || (a == b && nlLtB as bs)

/-- Python `<` on strings. -/
def strLtB (a b : String) : Bool := nlLtB (strK a) (strK b)

/-- Strict lexicographic order on pairs, as Python compares tuples. -/
def pairLtB (ltA : α → α → Bool) (ltB2 : β → β → Bool) [DecidableEq α]
    (x y : α × β) : Bool :=
  ltA x.1 y.1 || (decide (x.1 = y.1) && ltB2 x.2 y.2)

/-- Strict lexicographic order on lists over an element order with decidable
equality, as Python compares lists element by element. -/
def listLtB (lt : α → α → Bool) [DecidableEq α] : List α → List α → Bool
  | [], [] => false
  | [], _ :: _ => true
  | _ :: _, [] => false
  | a :: as, b :: bs => lt a b || (decide (a = b) && listLtB lt as bs)

/-- Python's `sorted` keeps `a` before `b` exactly when `key b < key a` fails. -/
def pyLe (lt : α → α → Bool) (a b : α) : Bool := !(lt b a)

/-- A strict order bundled with the facts `pyLe` needs. -/
structure StrictOrd (lt : α → α → Bool) : Prop where
  asymm : ∀ {a b}, lt a b = true → lt b a = true → False
  trans : ∀ {a b c}, lt a b = true → lt b c = true → lt a c = true
  trichotomy : ∀ a b, lt a b = true ∨ a = b ∨ lt b a = true

/-! ## Stable insertion sort (model of Python `sorted`)

`isort le` with `le = pyLe lt` computes exactly the result of Python's stable
`sorted` with strict key comparison `lt`: an element is inserted before the
first already-placed element it may precede, and insertion happens from the
right, so original order is kept among elements with equivalent keys. -/

def insertS (le : α → α → Bool) (x : α) : List α → List α
  | [] => [x]
  | y :: ys => if le x y then x :: y :: ys else y :: insertS le x ys

def isort (le : α → α → Bool) : List α → List α
  | [] => []
  | x :: xs => insertS le x (isort le xs)

/-- Splitting a character list at every occurrence of `sep` (no collapsing of
empty pieces), the semantics of Python `str.split(sep)` for a one-character
separator. -/
def splitOnChar (sep : Char) : List Char → List (List Char)
  | [] => [[]]
  | c :: cs =>
    match splitOnChar sep cs with
    | [] => [[]]
    | t :: ts => if c = sep then [] :: t :: ts else (c :: t) :: ts

/-- Python `s.split('.')`. -/
def pySplitDot (s : String) : List String := (splitOnChar '.' s.data).map List.asString

/-- Python `s[:n]` (slicing by characters). -/
def pyTake (s : String) (n : Nat) : String := ⟨s.data.take n⟩

/-- Python `s[n:]`. -/
def pyDrop (s : String) (n : Nat) : String := ⟨s.data.drop n⟩

def digitsToNat (l : List Char) : Nat := l.foldl (fun a c => a * 10 + (c.toNat - 48)) 0

/-- Python `int(s)` on the strings this program can feed it: an optional sign
followed by one or more ASCII digits.  (`int` additionally strips whitespace
and allows underscore digit separators; those forms never reach the two
`int(...)` call sites, which receive pieces of directory names.)  Any other
string raises `ValueError`, modelled as `none`. -/
def pyInt (s : String) : Option Int :=
  let l := s.data
  if l.isEmpty then none
  else if l.headD ' ' = '+' then
    if !l.tail.isEmpty && l.tail.all Char.isDigit
      then some (digitsToNat l.tail) else none
  else if l.headD ' ' = '-' then
    if !l.tail.isEmpty && l.tail.all Char.isDigit
      then some (-(digitsToNat l.tail : Int)) else none
  else if l.all Char.isDigit then some (digitsToNat l) else none

/-! ## The three sort keys of `fold_dataset.py` -/

/-- The compound key of the class catalog (line 55 of `fold_dataset.py`):
`key=lambda x: (x[0], int(x[1]))` where `x = name.split('.')`.  `none` models
the `IndexError`/`ValueError` raised on names without a second dot-token or
with a non-numeric one. -/
def catalogKey (c : String) : Option (String × Int) :=
  match pySplitDot c with
  | t0 :: t1 :: _ => (pyInt t1).map (fun n => (t0, n))
  | _ => none

/-- The key of the datapath sort (line 72): `key=lambda x: (x[0][0], int(x[0][2:]))`
applied to the class-name component.  `x[0][0]` raises `IndexError` on an empty
name and `int(x[0][2:])` raises `ValueError` unless the characters from index 2
on form an integer literal. -/
def datapathKey (c : String) : Option (String × Int) :=
  if c.data.isEmpty then none
  else (pyInt (pyDrop c 2)).map (fun n => (pyTake c 1, n))

/-- The key of the weights sort (line 189): `key=lambda x: (x[0][0], x[0].split('.')[2:])`.
The second component is the *list of dot-tokens from index 2 on* (compared as a
list of strings), not the numeric second token. -/
def weightsKey (c : String) : Option (String × List String) :=
  if c.data.isEmpty then none
  else some (pyTake c 1, (pySplitDot c).drop 2)

def intLtB (a b : Int) : Bool := decide (a < b)

/-- Python `<` on `(str, int)` key tuples. -/
def k1LtB : (String × Int) → (String × Int) → Bool := pairLtB strLtB intLtB

/-- Python `<` on `(str, list[str])` key tuples. -/
def k2LtB : (String × List String) → (String × List String) → Bool :=
  pairLtB strLtB (listLtB strLtB)

/-- Totalised catalog key used inside comparison closures; inside the
"all keys defined" guard it agrees with `catalogKey`. -/
def catalogKeyD (c : String) : String × Int := (catalogKey c).getD ("", 0)

def datapathKeyD (c : String) : String × Int := (datapathKey c).getD ("", 0)

def weightsKeyD (c : String) : String × List String := (weightsKey c).getD ("", [])

/-- Comparison used by `sorted` at line 55. -/
def catalogLtB (c1 c2 : String) : Bool := k1LtB (catalogKeyD c1) (catalogKeyD c2)

/-- Comparison used by the outer `sorted` at lines 70-73. -/
def datapathLtB (c1 c2 : String) : Bool := k1LtB (datapathKeyD c1) (datapathKeyD c2)

/-- Comparison used by `sorted` at line 189. -/
def weightsLtB (c1 c2 : String) : Bool := k2LtB (weightsKeyD c1) (weightsKeyD c2)

/-! ## Dataset construction (`PFRDataset.__init__`) -/

/-- One sample file of the requested split, abstracting the file system: the
class name (the path component that `i.split('/')[2]` extracts under the
canonical two-component dataset root), the file name, and the matrix that
`np.load` yields for the file.  The `entries` lists instantiating theorems
stand for the glob matches, so their class names never start with `'.'`
(hidden directories are not matched by `*`). -/
structure Entry where
  cls : String
  file : String
  content : List (List ℚ)
deriving DecidableEq

/-- The path suffix `class/split/file` by which `sorted(glob(...))` orders the
matches; the shared `root + '/'` prefix cannot affect the relative order. -/
def globPath (split : String) (e : Entry) : String :=
  e.cls ++ "/" ++ split ++ "/" ++ e.file

/-- Model of `sorted(glob(self.root + f'/*/{split}/*.npy'))` (line 71). -/
def globSorted (split : String) (entries : List Entry) : List Entry :=
  isort (pyLe (fun e1 e2 => strLtB (globPath split e1) (globPath split e2))) entries

/-- Model of `self.classes_names` (line 55): sort the dot-split directory names by the
compound key `(x[0], int(x[1]))` and re-join (`'.'.join(i.split('.')) = i`).
`sorted` computes every key before comparing, so one non-conforming name makes
the whole construction raise (`none`). -/
def classesNames (listdir : List String) : Option (List String) :=
  if listdir.all (fun c => (catalogKey c).isSome) then
    some (isort (pyLe catalogLtB) listdir)
  else none

/-- Model of `self.classes` (line 56): `dict(zip(self.classes_names, range(...)))`,
i.e. the position of a class name in the catalog (the catalog is duplicate-free
for any real directory listing). -/
def classIdx (cat : List String) (c : String) : Option Nat :=
  cat.findIdx? (fun x => x = c)

/-- Model of `self.datapath` (lines 70-73): pair each glob match with its class-name
component and stable-sort by `(x[0][0], int(x[0][2:]))`.  All keys are computed
before any comparison, so a single class name on which the key raises makes the
whole sort raise `ValueError` (`none`). -/
def mkDatapath (split : String) (entries : List Entry) : Option (List Entry) :=
  if entries.all (fun e => (datapathKey e.cls).isSome) then
    some (isort (pyLe (fun e1 e2 => datapathLtB e1.cls e2.cls)) (globSorted split entries))
  else none

/-! ## Class weights (`get_classes_weights`, lines 184-191) -/

/-- One `Counter` insertion: bump an existing key (keeping its position —
Python dicts preserve insertion order) or append a new key with count 1. -/
def counterAdd (c : String) : List (String × Nat) → List (String × Nat)
  | [] => [(c, 1)]
  | (k, n) :: rest => if k = c then (k, n + 1) :: rest else (k, n) :: counterAdd c rest

/-- Model of `Counter(classes)`: counts in first-occurrence order. -/
def counter (l : List String) : List (String × Nat) :=
  l.foldl (fun acc c => counterAdd c acc) []

/-- Model of `get_classes_weights`: inverse frequencies per class, divided by their mean,
then sorted by `(x[0][0], x[0].split('.')[2:])` and stripped to the values.
The sort key indexes `x[0][0]`, which raises on an empty class name (`none`);
`np.mean` of an empty value list returns `nan` rather than raising, and with no
classes the final list is empty anyway. -/
def invFreqs (dp : List Entry) : List (String × ℚ) :=
  (counter (dp.map (·.cls))).map (fun kv => (kv.1, (1 : ℚ) / (kv.2 : ℚ)))

/-- The mean-normalized per-class weights, still keyed by class name (the
dict `weights` after the second comprehension at line 188). -/
def normWeights (dp : List Entry) : List (String × ℚ) :=
  let ws := invFreqs dp
  let mean := (ws.map (·.2)).sum / (ws.length : ℚ)
  ws.map (fun kv => (kv.1, kv.2 / mean))

def classesWeights (dp : List Entry) : Option (List ℚ) :=
  if (counter (dp.map (·.cls))).all (fun kv => !kv.1.data.isEmpty) then
    some ((isort (pyLe (fun a b => weightsLtB a.1 b.1)) (normWeights dp)).map (·.2))
  else none


/-! ## Configuration and per-sample processing (`_get_item`) -/

/-- A numpy 2-D float array: a list of rows (points). -/
abbrev Mat := List (List ℚ)

/-- The constructor arguments of `PFRDataset` that the pipeline consults. -/
structure Cfg where
  batch_size : Nat
  npoints : Nat
  normalize : Bool
  normal_channel : Bool
  cache_size : Nat
  shuffle : Bool
  shuffle_points : Bool
  scale_low : ℚ
  scale_high : ℚ
  shift_range : ℚ
  jitter_sigma : ℚ
  add_n_c_info : Bool
  omit_parameters_ranges : List Nat
  to_categorical_indexes : List Nat
  to_categorical_sizes : List Nat

/-- One step of the omission loop (lines 114-117):
`np.concatenate([ps[:, :ranges[i-1]], ps[:, ranges[i]:]], axis=1)`.  For an
odd-length list the last step has `i = 0`, where `ranges[i-1]` is Python's
`ranges[-1]`, the final element. -/
def omitStep (ranges : List Nat) (i : Nat) (m : Mat) : Mat :=
  let a := if i = 0 then ranges.getLastD 0 else ranges.getD (i - 1) 0
  let b := ranges.getD i 0
  m.map (fun r => r.take a ++ r.drop b)

/-- The loop `for i in range(len(ranges) - 1, -1, -2)` (line 114). -/
def omitRanges (ranges : List Nat) (m : Mat) : Mat :=
  ((List.range ((ranges.length + 1) / 2)).map (fun j => ranges.length - 1 - 2 * j)).foldl
    (fun acc i => omitStep ranges i acc) m

/-- The decode step of `_get_item` on a cache miss (lines 112-119): with the
normal channel enabled, load all columns and run the omission loop; otherwise
load only the first three columns and skip omission. -/
def decode (cfg : Cfg) (e : Entry) : Mat :=
  if cfg.normal_channel then omitRanges cfg.omit_parameters_ranges e.content
  else e.content.map (List.take 3)

/-- Contract of `np.random.choice(ind, npoints, replace=...)` (lines 125-128):
the drawn list has `npoints` indices below `n`, distinct when drawn without
replacement, i.e. when `n > npoints`. -/
def ValidDraw (n K : Nat) (draw : List Nat) : Prop :=
  draw.length = K ∧ (∀ i ∈ draw, i < n) ∧ (K < n → draw.Nodup)

/-- Lines 123-128: `np.random.choice` raises `ValueError` on an empty
population (`N == 0`); otherwise `np.sort` orders the drawn indices
ascending. -/
def resampleInd (n : Nat) (draw : List Nat) : Option (List Nat) :=
  if n = 0 then none else some (isort (fun a b => decide (a ≤ b)) draw)

/-- Model of `np.array(y, dtype=int)` truncation toward zero, as applied by
`to_categorical` to its input values. -/
def pyTruncInt (v : ℚ) : Int := if 0 ≤ v then v.floor else -((-v).floor)

/-- Model of `tf.keras.utils.to_categorical(v, num_classes=size)` on one value: a
`size`-wide one-hot row.  The cast value must index a `size`-column array
(numpy admits negative indices down to `-size`); out-of-range values raise
`IndexError` (`none`), as does `size = 0`. -/
def oneHot (size : Nat) (v : ℚ) : Option (List ℚ) :=
  let y := pyTruncInt v
  if -(size : Int) ≤ y ∧ y < size then
    let pos : Int := if y < 0 then y + size else y
    some ((List.range size).map (fun (j : Nat) => if (j : Int) = pos then 1 else 0))
  else none

/-- An `Option`-valued map over a list: `none` (an exception) propagates. -/
def optMap (f : α → Option β) : List α → Option (List β)
  | [] => some []
  | a :: l => (f a).bind (fun b => (optMap f l).map (fun bs => b :: bs))

/-- One categorical expansion (lines 132-134): replace column `ci` by its
one-hot block.  Reading the column `ps[:, ci]` raises unless `ci` is inside
every row. -/
def catStep (ci size : Nat) (m : Mat) : Option Mat :=
  if m.all (fun r => decide (ci < r.length)) then
    optMap (fun r => (oneHot size (r.getD ci 0)).map
      (fun oh => r.take ci ++ oh ++ r.drop (ci + 1))) m
  else none

/-- The loop over `zip(self.to_categorical_indexes, self.to_categorical_sizes)`
(line 132; Python `zip` stops at the shorter list). -/
def catSteps : List (Nat × Nat) → Mat → Option Mat
  | [], m => some m
  | (ci, sz) :: rest, m => (catStep ci sz m).bind (catSteps rest)

/-- Lines 136-137: append the positional column
`self.n_c = arange(npoints) / npoints`; `np.concatenate` requires the row
counts to agree. -/
def addNC (K : Nat) (m : Mat) : Option Mat :=
  if m.length = K then
    some (m.enum.map (fun p => p.2 ++ [(p.1 : ℚ) / (K : ℚ)]))
  else none

/-- Model of `pc_normalize` (lines 18-24): subtract the per-column centroid and divide
by the largest per-point Euclidean norm.  `np.sqrt` is the parameter `sqrtFn`;
no claim inspects the normalized values.  A zero maximum gives `inf`/`nan` in
numpy and `0` in `ℚ`, equally unobserved by the claims. -/
def pc_normalize (sqrtFn : ℚ → ℚ) (pc : Mat) : Mat :=
  let centroid := (List.range (pc.headD []).length).map
    (fun j => (pc.map (fun r => r.getD j 0)).sum / (pc.length : ℚ))
  let pc1 := pc.map (fun r => List.zipWith (fun x c => x - c) r centroid)
  let m := (pc1.map (fun r => sqrtFn (r.map (fun x => x ^ 2)).sum)).foldr max 0
  pc1.map (fun r => r.map (fun x => x / m))

/-- Line 141: `point_set[:, 0:3] = pc_normalize(point_set[:, 0:3])`, writing
into the fresh post-resampling array. -/
def applyNormalize (sqrtFn : ℚ → ℚ) (m : Mat) : Mat :=
  let norm := pc_normalize sqrtFn (m.map (List.take 3))
  (m.zip norm).map (fun p => p.2 ++ p.1.drop 3)

/-- Model of `self.cache`: a dict from sample index to the decoded `(point_set, cls)`
pair.  Keys are only ever added, never updated or removed, so an
insertion-ordered association list models it faithfully. -/
abbrev Cache := List (Nat × (Mat × Nat))

def cacheLookup (cache : Cache) (i : Nat) : Option (Mat × Nat) :=
  (cache.find? (fun p => p.1 == i)).map (·.2)

/-- The tail of `_get_item` after the cache block (lines 123-145): resample to
exactly `npoints` sorted indices, fancy-index (`point_set[ind, :]` — a fresh
copy, with `IndexError` on any out-of-range index), categorical expansion,
optional positional channel, optional normalization of the first three columns
of the fresh array, and final truncation to three columns when the normal
channel is disabled. -/
def finishItem (cfg : Cfg) (sqrtFn : ℚ → ℚ) (draw : List Nat) (ps0 : Mat) :
    Option Mat := do
  let ind ← resampleInd ps0.length draw
  if ind.all (fun i => decide (i < ps0.length)) then
    let ps1 := ind.map (fun i => ps0.getD i [])
    let ps2 ← catSteps (cfg.to_categorical_indexes.zip cfg.to_categorical_sizes) ps1
    let ps3 ← if cfg.add_n_c_info then addNC cfg.npoints ps2 else some ps2
    let ps4 := if cfg.normalize then applyNormalize sqrtFn ps3 else ps3
    some (if cfg.normal_channel then ps4 else ps4.map (List.take 3))
  else none

/-- Model of `_get_item` (lines 105-145).  On a miss, the decoded pair is inserted into
the cache (only while it is below capacity) *before* resampling; everything
after the cache block operates on fresh arrays, so the cached pair is never
written again.  Class lookup (`self.classes[...]`) raises `KeyError` for an
unknown class (`none`). -/
def getItemFetch (cfg : Cfg) (cat : List String) (dp : List Entry)
    (cache : Cache) (index : Nat) : Option (Mat × Nat × Cache) :=
  match cacheLookup cache index with
  | some (ps, c) => some (ps, c, cache)
  | none => do
    let e ← dp[index]?
    let c ← classIdx cat e.cls
    let ps := decode cfg e
    let cache' := if cache.length < cfg.cache_size
      then cache ++ [(index, (ps, c))] else cache
    some (ps, c, cache')

def getItem (cfg : Cfg) (cat : List String) (dp : List Entry) (sqrtFn : ℚ → ℚ)
    (cache : Cache) (index : Nat) (draw : List Nat) :
    Option ((Mat × Nat) × Cache) := do
  let s ← getItemFetch cfg cat dp cache index
  let ps ← finishItem cfg sqrtFn draw s.1
  some ((ps, s.2.1), s.2.2)

/-- Model of `shape[1]` of a matrix.  numpy tracks the column count even with zero
rows; the model reads it off the first row, and every use has at least one
row (`npoints ≥ 1` in all real configurations). -/
def matWidth (m : Mat) : Nat := (m.headD []).length

/-- Model of `num_channel` (lines 153-154): `self._get_item(0)[0].shape[1]`, including
the `_get_item` side effect on the cache. -/
def numChannel (cfg : Cfg) (cat : List String) (dp : List Entry) (sqrtFn : ℚ → ℚ)
    (cache : Cache) (draw : List Nat) : Option (Nat × Cache) :=
  (getItem cfg cat dp sqrtFn cache 0 draw).map (fun r => (matWidth r.1.1, r.2))

/-! ## Batch iteration (`reset`, `has_next_batch`, `next_batch`) -/

/-- Iterator state: `self.idxs`, `self.num_batches`, `self.batch_idx`. -/
structure IterSt where
  idxs : List Nat
  num_batches : Nat
  batch_idx : Nat

/-- Model of `reset` (lines 156-161): `idxs = arange(n)`, shuffled in place when
shuffling is enabled (`perm` is the result of `np.random.shuffle`, by contract
a permutation of `range n`); `num_batches = (n + batch_size - 1) //
batch_size`; cursor zero.  Nothing of the previous state is read. -/
def resetIter (cfg : Cfg) (n : Nat) (perm : List Nat) : IterSt :=
  { idxs := if cfg.shuffle then perm else List.range n
    num_batches := (n + cfg.batch_size - 1) / cfg.batch_size
    batch_idx := 0 }

/-- Model of `has_next_batch` (lines 163-164). -/
def hasNextBatch (st : IterSt) : Bool := decide (st.batch_idx < st.num_batches)

/-! ## Augmentation (`_augment_batch_data`, lines 88-103)

`provider.py` is not among the sources; its leaf operations are modelled from
the spec (§4.6). -/

/-- Per-batch random draws of the augmentation pipeline: cosine and sine of
the per-example vertical-axis rotation angle, a per-example 3x3
perturbation-rotation matrix, the per-example scale and shift draws, the
per-point pre-clip jitter draws, and the point permutation used by
`provider.shuffle_points`. -/
structure AugDraws where
  rotc : Nat → ℚ
  rots : Nat → ℚ
  pert : Nat → List (List ℚ)
  scales : Nat → ℚ
  shifts : Nat → Nat → ℚ
  noise : Nat → Nat → Nat → ℚ
  perm : List Nat

/-- Apply a 3x3 matrix to the first three entries of a row, producing exactly
three entries. -/
def apply3 (mat : List (List ℚ)) (v : List ℚ) : List ℚ :=
  (List.range 3).map (fun i =>
    (List.zipWith (fun a b => a * b) (mat.getD i []) (v.take 3)).sum)

/-- The rotation matrix about the vertical axis for angle with cosine `c` and
sine `s`. -/
def vertRotMat (c s : ℚ) : List (List ℚ) := [[c, 0, s], [0, 1, 0], [-s, 0, c]]

/-- Modelled from the spec: `provider.rotate_point_cloud` /
`rotate_point_cloud_with_normal` (and the perturbation variants) rotate the
position columns of each point; with normals present, columns 3-5 are rotated
by the same matrix (width at least 6 with normals, at least 3 without, in any
configuration the code runs on). -/
def rotateRow (withNormal : Bool) (mat : List (List ℚ)) (r : List ℚ) : List ℚ :=
  let posPart := apply3 mat r
  if withNormal then posPart ++ apply3 mat (r.drop 3) ++ r.drop 6
  else posPart ++ r.drop 3

def clipQ (c x : ℚ) : ℚ := max (-c) (min c x)

/-- Modelled from the spec: the position-only stages of lines 96-99 —
per-example uniform scale, per-example shift, per-point Gaussian jitter
clipped to magnitude `0.1` — written back into the rotated array's three
position columns. -/
def augPositions (cfg : Cfg) (ad : AugDraws) (b : Nat) (sample : Mat) : Mat :=
  sample.enum.map (fun p =>
    let pos := (p.2.take 3).enum.map (fun q =>
      q.2 * ad.scales b + ad.shifts b q.1 +
        clipQ (1/10) (cfg.jitter_sigma * ad.noise b p.1 q.1))
    pos ++ p.2.drop 3)

/-- Modelled from the spec: `provider.shuffle_points` permutes the point axis
by one shared random permutation of `range(npoints)`. -/
def permRows (perm : List Nat) (m : Mat) : Mat := perm.filterMap (fun i => m[i]?)

/-- Model of `_augment_batch_data` (lines 88-103): rotation and perturbation rotation
(with consistent normal rotation when normals are on), scale/shift/jitter on
the position columns, then optional point shuffling.  It operates on the
freshly stacked batch array and never touches the cache. -/
def augmentBatch (cfg : Cfg) (ad : AugDraws) (batch : List Mat) : List Mat :=
  let rotated := batch.enum.map (fun p =>
    let rot1 := vertRotMat (ad.rotc p.1) (ad.rots p.1)
    (p.2.map (rotateRow cfg.normal_channel rot1)).map
      (rotateRow cfg.normal_channel (ad.pert p.1)))
  let merged := rotated.enum.map (fun p => augPositions cfg ad p.1 p.2)
  if cfg.shuffle_points then merged.map (permRows ad.perm) else merged

/-- The loop of `next_batch` (lines 174-178), threading the cache: fetch each
sample, perform the stacking assignment `batch_data[i] = ps` (numpy raises
unless the sample has exactly `npoints` rows of width `C`), and look up the
per-example class weight `self.weights[cls[0]]`. -/
def batchLoop (cfg : Cfg) (cat : List String) (dp : List Entry) (weights : List ℚ)
    (sqrtFn : ℚ → ℚ) (idxs : List Nat) (start : Nat) (C : Nat)
    (draws : Nat → List Nat) :
    Nat → Nat → Cache → Option ((List Mat × List Nat × List ℚ) × Cache)
  | _, 0, cache => some (([], [], []), cache)
  | i, rem + 1, cache => do
    let idx ← idxs[start + i]?
    let r ← getItem cfg cat dp sqrtFn cache idx (draws i)
    if r.1.1.length = cfg.npoints ∧ ∀ row ∈ r.1.1, row.length = C then
      let w ← weights[r.1.2]?
      let rest ← batchLoop cfg cat dp weights sqrtFn idxs start C draws (i + 1) rem r.2
      some ((r.1.1 :: rest.1.1, r.1.2 :: rest.1.2.1, w :: rest.1.2.2), rest.2)
    else none

/-- Model of `next_batch` (lines 166-182).  `np.zeros((bsize, npoints, num_channel()))`
first evaluates `num_channel()` — a full `_get_item(0)` with its cache side
effect — and then raises `ValueError` when `bsize = end_idx - start_idx` is
negative (`end_idx` is capped at `len(datapath)`, so this happens exactly when
`start_idx` exceeds the sample count).  The cursor advances before
augmentation; augmentation transforms only the stacked copy. -/
def nextBatch (cfg : Cfg) (cat : List String) (dp : List Entry) (weights : List ℚ)
    (sqrtFn : ℚ → ℚ) (st : IterSt) (cache : Cache) (probeDraw : List Nat)
    (draws : Nat → List Nat) (augment : Bool) (ad : AugDraws) :
    Option ((List Mat × List Nat × List ℚ) × Cache × IterSt) := do
  let n := dp.length
  let start := st.batch_idx * cfg.batch_size
  let endIdx := min ((st.batch_idx + 1) * cfg.batch_size) n
  let pr ← numChannel cfg cat dp sqrtFn cache probeDraw
  if start ≤ endIdx then
    let bsize := endIdx - start
    let out ← batchLoop cfg cat dp weights sqrtFn st.idxs start pr.1 draws 0 bsize pr.2
    let st' := { st with batch_idx := st.batch_idx + 1 }
    let data := if augment then augmentBatch cfg ad out.1.1 else out.1.1
    some ((data, out.1.2.1, out.1.2.2), out.2, st')
  else none


/-! ## Well-shaped class names: where the three sort keys agree -/

/-- Class names of the shape the datapath sort key can process: one leading
non-dot character, a dot, then a non-empty digit string.  On exactly these
names `datapathKey` agrees with `catalogKey`; on any other name that the
catalog key accepts (e.g. `"category.3"`), the datapath sort raises. -/
def validName (c : String) : Bool :=
  match c.data with
  | ch :: d2 :: ds => (ch != '.') && (d2 == '.') && !ds.isEmpty && ds.all Char.isDigit
  | _ => false

/-- Width effect of one omission step. -/
def omitStepW (ranges : List Nat) (i : Nat) (w : Nat) : Nat :=
  let a := if i = 0 then ranges.getLastD 0 else ranges.getD (i - 1) 0
  let b := ranges.getD i 0
  min a w + (w - b)

/-- Width effect of the whole omission loop. -/
def omitWidth (ranges : List Nat) (w : Nat) : Nat :=
  ((List.range ((ranges.length + 1) / 2)).map (fun j => ranges.length - 1 - 2 * j)).foldl
    (fun acc i => omitStepW ranges i acc) w

/-- Column count of a freshly decoded sample as a function of the raw width. -/
def decodeWidth (cfg : Cfg) (w : Nat) : Nat :=
  if cfg.normal_channel then omitWidth cfg.omit_parameters_ranges w else min 3 w

/-- Width effect of the categorical loop. -/
def catWidth : List (Nat × Nat) → Nat → Nat
  | [], w => w
  | (_, sz) :: rest, w => catWidth rest (w - 1 + sz)

/-- The output channel count of `_get_item` as a function of the decoded
width: categorical widening, the optional positional channel, then the final
three-column truncation when normals are off. -/
def outWidth (cfg : Cfg) (w : Nat) : Nat :=
  let w1 := catWidth (cfg.to_categorical_indexes.zip cfg.to_categorical_sizes) w
  let w2 := if cfg.add_n_c_info then w1 + 1 else w1
  if cfg.normal_channel then w2 else min 3 w2

/-! ## Claim C10: three output channels when `normal_channel=False` -/

/-- Invariant tying the cache to the datapath: every stored pair is the decode
of the entry at its key with the entry's class id — the only way `_get_item`
ever fills the cache. -/
def CacheOK (cfg : Cfg) (cat : List String) (dp : List Entry) (cache : Cache) : Prop :=
  ∀ k ps c, cacheLookup cache k = some (ps, c) →
    ∃ e, dp[k]? = some e ∧ ps = decode cfg e ∧ classIdx cat e.cls = some c

/-! ## Characterization of `Counter`: first-occurrence keys and exact counts -/

/-- The value `Counter`/dict lookup would find for a key. -/
def cnt? (xs : List (String × Nat)) (k : String) : Option Nat :=
  (xs.find? (fun p => p.1 == k)).map (·.2)

/-- First-occurrence deduplication: the key order of `Counter`. -/
def dedupF : List String → List String
  | [] => []
  | c :: rest => c :: (dedupF rest).filter (fun x => x != c)

/-- Runs `k` successive `next_batch` calls, threading the iterator state and
the cache. -/
def runBatches (cfg : Cfg) (cat : List String) (dp : List Entry)
    (weights : List ℚ) (sqrtFn : ℚ → ℚ) (probeDraw : List Nat)
    (draws : Nat → List Nat) (augment : Bool) (ad : AugDraws) :
    Nat → IterSt → Cache → Option (IterSt × Cache)
  | 0, st, cache => some (st, cache)
  | k + 1, st, cache =>
    (nextBatch cfg cat dp weights sqrtFn st cache probeDraw draws augment ad).bind
      (fun r => runBatches cfg cat dp weights sqrtFn probeDraw draws augment ad
        k r.2.2 r.2.1)

/-! ### Order-theoretic facts about the boolean orders -/

theorem nlLtB_asymm : ∀ {a b : List Nat}, nlLtB a b = true → nlLtB b a = true → False
  | [], [], h1, _ => by simp [nlLtB] at h1
  | [], _ :: _, _, h2 => by simp [nlLtB] at h2
  | _ :: _, [], h1, _ => by simp [nlLtB] at h1
  | a :: as, b :: bs, h1, h2 => by
    simp only [nlLtB, Bool.or_eq_true, decide_eq_true_eq, Bool.and_eq_true, beq_iff_eq] at h1 h2
    rcases h1 with h1 | ⟨he1, h1⟩
    · rcases h2 with h2 | ⟨he2, _⟩
      · omega
      · omega
    · rcases h2 with h2 | ⟨_, h2⟩
      · omega
      · exact nlLtB_asymm h1 h2

theorem nlLtB_trans : ∀ {a b c : List Nat},
    nlLtB a b = true → nlLtB b c = true → nlLtB a c = true
  | [], _ :: _, [] , _, h2 => by simp [nlLtB] at h2
  | [], _ :: _, _ :: _, _, _ => by simp [nlLtB]
  | a :: as, b :: bs, c :: cs, h1, h2 => by
    simp only [nlLtB, Bool.or_eq_true, decide_eq_true_eq, Bool.and_eq_true,
      beq_iff_eq] at h1 h2 ⊢
    rcases h1 with h1 | ⟨he1, h1⟩
    · rcases h2 with h2 | ⟨he2, _⟩
      · exact Or.inl (Nat.lt_trans h1 h2)
      · exact Or.inl (he2 ▸ h1)
    · rcases h2 with h2 | ⟨he2, h2⟩
      · exact Or.inl (he1 ▸ h2)
      · exact Or.inr ⟨he1.trans he2, nlLtB_trans h1 h2⟩

theorem nlLtB_trichotomy : ∀ (a b : List Nat),
    nlLtB a b = true ∨ a = b ∨ nlLtB b a = true
  | [], [] => Or.inr (Or.inl rfl)
  | [], _ :: _ => Or.inl (by simp [nlLtB])
  | _ :: _, [] => Or.inr (Or.inr (by simp [nlLtB]))
  | a :: as, b :: bs => by
    rcases Nat.lt_trichotomy a b with h | h | h
    · exact Or.inl (by simp [nlLtB, h])
    · rcases nlLtB_trichotomy as bs with h' | h' | h'
      · exact Or.inl (by simp [nlLtB, h, h'])
      · exact Or.inr (Or.inl (by rw [h, h']))
      · exact Or.inr (Or.inr (by simp [nlLtB, h, h']))
    · exact Or.inr (Or.inr (by simp [nlLtB, h]))

theorem nlLtB_strictOrd : StrictOrd nlLtB :=
  ⟨nlLtB_asymm, nlLtB_trans, nlLtB_trichotomy⟩

theorem pairLtB_strictOrd {ltA : α → α → Bool} {ltB2 : β → β → Bool}
    [DecidableEq α] [DecidableEq β]
    (hA : StrictOrd ltA) (hB : StrictOrd ltB2) :
    StrictOrd (pairLtB ltA ltB2) := by
  constructor
  · intro a b h1 h2
    simp only [pairLtB, Bool.or_eq_true, decide_eq_true_eq, Bool.and_eq_true] at h1 h2
    rcases h1 with h1 | ⟨he1, h1⟩
    · rcases h2 with h2 | ⟨he2, _⟩
      · exact hA.asymm h1 h2
      · exact hA.asymm h1 (he2 ▸ h1)
    · rcases h2 with h2 | ⟨_, h2⟩
      · exact hA.asymm h2 (he1 ▸ h2)
      · exact hB.asymm h1 h2
  · intro a b c h1 h2
    simp only [pairLtB, Bool.or_eq_true, decide_eq_true_eq, Bool.and_eq_true] at h1 h2 ⊢
    rcases h1 with h1 | ⟨he1, h1⟩
    · rcases h2 with h2 | ⟨he2, _⟩
      · exact Or.inl (hA.trans h1 h2)
      · exact Or.inl (he2 ▸ h1)
    · rcases h2 with h2 | ⟨he2, h2⟩
      · exact Or.inl (he1 ▸ h2)
      · exact Or.inr ⟨he1.trans he2, hB.trans h1 h2⟩
  · intro a b
    rcases hA.trichotomy a.1 b.1 with h | h | h
    · exact Or.inl (by simp [pairLtB, h])
    · rcases hB.trichotomy a.2 b.2 with h' | h' | h'
      · exact Or.inl (by simp [pairLtB, h, h'])
      · exact Or.inr (Or.inl (by cases a; cases b; simp_all))
      · exact Or.inr (Or.inr (by simp [pairLtB, h, h']))
    · exact Or.inr (Or.inr (by simp [pairLtB, h]))

theorem listLtB_strictOrd {lt : α → α → Bool} [DecidableEq α]
    (h : StrictOrd lt) : StrictOrd (listLtB lt) := by
  refine ⟨?_, ?_, ?_⟩
  · intro a b
    induction a generalizing b with
    | nil => intro h1 h2; cases b <;> simp [listLtB] at h1 h2
    | cons x xs ih =>
      intro h1 h2
      cases b with
      | nil => simp [listLtB] at h1
      | cons y ys =>
        simp only [listLtB, Bool.or_eq_true, decide_eq_true_eq, Bool.and_eq_true] at h1 h2
        rcases h1 with h1 | ⟨he1, h1⟩
        · rcases h2 with h2 | ⟨he2, _⟩
          · exact h.asymm h1 h2
          · exact h.asymm h1 (he2 ▸ h1)
        · rcases h2 with h2 | ⟨_, h2⟩
          · exact h.asymm h2 (he1 ▸ h2)
          · exact ih h1 h2
  · intro a b c
    induction a generalizing b c with
    | nil =>
      intro h1 h2
      cases b with
      | nil => simp [listLtB] at h1
      | cons y ys => cases c with
        | nil => simp [listLtB] at h2
        | cons z zs => simp [listLtB]
    | cons x xs ih =>
      intro h1 h2
      cases b with
      | nil => simp [listLtB] at h1
      | cons y ys =>
        cases c with
        | nil => simp [listLtB] at h2
        | cons z zs =>
          simp only [listLtB, Bool.or_eq_true, decide_eq_true_eq,
            Bool.and_eq_true] at h1 h2 ⊢
          rcases h1 with h1 | ⟨he1, h1⟩
          · rcases h2 with h2 | ⟨he2, _⟩
            · exact Or.inl (h.trans h1 h2)
            · exact Or.inl (he2 ▸ h1)
          · rcases h2 with h2 | ⟨he2, h2⟩
            · exact Or.inl (he1 ▸ h2)
            · exact Or.inr ⟨he1.trans he2, ih h1 h2⟩
  · intro a b
    induction a generalizing b with
    | nil => cases b with
      | nil => exact Or.inr (Or.inl rfl)
      | cons y ys => exact Or.inl (by simp [listLtB])
    | cons x xs ih =>
      cases b with
      | nil => exact Or.inr (Or.inr (by simp [listLtB]))
      | cons y ys =>
        rcases h.trichotomy x y with hx | hx | hx
        · exact Or.inl (by simp [listLtB, hx])
        · rcases ih ys with h' | h' | h'
          · exact Or.inl (by simp [listLtB, hx, h'])
          · exact Or.inr (Or.inl (by rw [hx, h']))
          · exact Or.inr (Or.inr (by simp [listLtB, hx, h']))
        · exact Or.inr (Or.inr (by simp [listLtB, hx]))

theorem pyLe_total {lt : α → α → Bool} (h : StrictOrd lt) (a b : α) :
    pyLe lt a b = true ∨ pyLe lt b a = true := by
  by_cases h1 : lt b a = true
  · by_cases h2 : lt a b = true
    · exact absurd (h.asymm h1 h2) id
    · exact Or.inr (by simp [pyLe, h2])
  · exact Or.inl (by simp [pyLe, h1])

theorem pyLe_trans {lt : α → α → Bool} (h : StrictOrd lt) {a b c : α}
    (h1 : pyLe lt a b = true) (h2 : pyLe lt b c = true) : pyLe lt a c = true := by
  simp only [pyLe, Bool.not_eq_true'] at h1 h2 ⊢
  by_contra hca
  have hca' : lt c a = true := by
    cases hv : lt c a
    · exact absurd hv hca
    · rfl
  rcases h.trichotomy a b with hab | hab | hab
  · have : lt c b = true := h.trans hca' hab
    rw [this] at h2; exact absurd h2 (by simp)
  · rw [hab] at hca'; rw [hca'] at h2; exact absurd h2 (by simp)
  · rw [hab] at h1; exact absurd h1 (by simp)

/-- If neither side compares strictly below the other, the two elements have
equal comparison behaviour; for a `StrictOrd` this forces equality. -/
theorem StrictOrd.eq_of_not_lt {lt : α → α → Bool} (h : StrictOrd lt) {a b : α}
    (h1 : lt a b ≠ true) (h2 : lt b a ≠ true) : a = b := by
  rcases h.trichotomy a b with h' | h' | h'
  · exact absurd h' h1
  · exact h'
  · exact absurd h' h2

theorem insertS_perm (le : α → α → Bool) (x : α) :
    ∀ l : List α, List.Perm (insertS le x l) (x :: l)
  | [] => List.Perm.refl _
  | y :: ys => by
    by_cases h : le x y = true
    · simp [insertS, h]
    · simp only [insertS, h, Bool.false_eq_true, if_false]
      exact ((insertS_perm le x ys).cons y).trans (List.Perm.swap x y ys)

theorem isort_perm (le : α → α → Bool) : ∀ l : List α, List.Perm (isort le l) l
  | [] => List.Perm.refl _
  | x :: xs => ((insertS_perm le x (isort le xs)).trans ((isort_perm le xs).cons x))

theorem isort_length (le : α → α → Bool) (l : List α) :
    (isort le l).length = l.length := (isort_perm le l).length_eq

theorem insertS_pairwise {le : α → α → Bool}
    (htot : ∀ a b, le a b = true ∨ le b a = true)
    (htr : ∀ {a b c}, le a b = true → le b c = true → le a c = true)
    {x : α} {l : List α} (hl : l.Pairwise (fun a b => le a b = true)) :
    (insertS le x l).Pairwise (fun a b => le a b = true) := by
  induction l with
  | nil => simp [insertS]
  | cons y ys ih =>
    rcases List.pairwise_cons.mp hl with ⟨hy, hys⟩
    by_cases h : le x y = true
    · simp only [insertS, h, if_true]
      refine List.pairwise_cons.mpr ⟨?_, hl⟩
      intro z hz
      rcases hz with _ | hz
      · exact h
      · exact htr h (hy _ (by assumption))
    · simp only [insertS, h, Bool.false_eq_true, if_false]
      refine List.pairwise_cons.mpr ⟨?_, ih hys⟩
      · intro z hz
        have hz' := List.mem_cons.mp ((insertS_perm le x ys).mem_iff.mp hz)
        rcases hz' with rfl | hz'
        · rcases htot y z with h' | h'
          · exact h'
          · exact absurd h' h
        · exact hy _ hz'

theorem isort_pairwise {le : α → α → Bool}
    (htot : ∀ a b, le a b = true ∨ le b a = true)
    (htr : ∀ {a b c}, le a b = true → le b c = true → le a c = true)
    (l : List α) : (isort le l).Pairwise (fun a b => le a b = true) := by
  induction l with
  | nil => simp [isort]
  | cons x xs ih => exact insertS_pairwise htot htr ih

/-- Sorting a list that is already pairwise ordered leaves it unchanged
(the stability property used by `get_classes_weights`). -/
theorem isort_of_pairwise {le : α → α → Bool} :
    ∀ {l : List α}, l.Pairwise (fun a b => le a b = true) → isort le l = l
  | [], _ => rfl
  | x :: xs, h => by
    rcases List.pairwise_cons.mp h with ⟨hx, hxs⟩
    have hrec := isort_of_pairwise hxs
    simp only [isort, hrec]
    cases xs with
    | nil => rfl
    | cons y ys => simp [insertS, hx y (by simp)]

/-! ## Python primitives used by the pipeline -/

theorem strK_injective {a b : String} (h : strK a = strK b) : a = b := by
  have hinj : Function.Injective Char.toNat := by
    intro x y hxy
    exact Char.eq_of_val_eq (UInt32.ext hxy)
  have hdata : a.data = b.data := List.map_injective_iff.mpr hinj h
  cases a; cases b; simp only at hdata; rw [hdata]

theorem strLtB_strictOrd : StrictOrd strLtB := by
  refine ⟨?_, ?_, ?_⟩
  · intro a b h1 h2; exact nlLtB_asymm h1 h2
  · intro a b c h1 h2; exact nlLtB_trans h1 h2
  · intro a b
    rcases nlLtB_trichotomy (strK a) (strK b) with h | h | h
    · exact Or.inl h
    · exact Or.inr (Or.inl (strK_injective h))
    · exact Or.inr (Or.inr h)

theorem intLtB_strictOrd : StrictOrd intLtB := by
  refine ⟨?_, ?_, ?_⟩
  · intro a b h1 h2; simp only [intLtB, decide_eq_true_eq] at h1 h2; omega
  · intro a b c h1 h2; simp only [intLtB, decide_eq_true_eq] at h1 h2 ⊢; omega
  · intro a b
    simp only [intLtB, decide_eq_true_eq]
    omega

theorem k1LtB_strictOrd : StrictOrd k1LtB :=
  pairLtB_strictOrd strLtB_strictOrd intLtB_strictOrd

theorem k2LtB_strictOrd : StrictOrd k2LtB :=
  pairLtB_strictOrd strLtB_strictOrd (listLtB_strictOrd strLtB_strictOrd)

theorem splitOnChar_of_no_sep {sep : Char} :
    ∀ {l : List Char}, (∀ d ∈ l, d ≠ sep) → splitOnChar sep l = [l]
  | [], _ => rfl
  | c :: cs, h => by
    have hrec := splitOnChar_of_no_sep (fun d hd => h d (List.mem_cons_of_mem _ hd))
    simp [splitOnChar, hrec, h c (by simp)]

theorem isDigit_ne {c : Char} (h : c.isDigit = true) : c ≠ '.' ∧ c ≠ '+' ∧ c ≠ '-' := by
  refine ⟨?_, ?_, ?_⟩ <;> intro he <;> rw [he] at h <;> exact absurd h (by decide)

theorem validName_split {c : String} (h : validName c = true) :
    ∃ ch ds, c.data = ch :: '.' :: ds ∧ ch ≠ '.' ∧ ds ≠ [] ∧ ds.all Char.isDigit = true := by
  unfold validName at h
  rcases hd : c.data with _ | ⟨ch, _ | ⟨d2, ds⟩⟩ <;> rw [hd] at h
  · exact absurd h (by simp)
  · exact absurd h (by simp)
  · simp only [Bool.and_eq_true, bne_iff_ne, beq_iff_eq] at h
    obtain ⟨⟨⟨hch, hd2⟩, hne⟩, hdig⟩ := h
    refine ⟨ch, ds, ?_, hch, ?_, hdig⟩
    · simp [hd, hd2]
    · simpa using hne

theorem pyInt_digits {l : List Char} (hne : l ≠ []) (hd : l.all Char.isDigit = true) :
    pyInt (List.asString l) = some (digitsToNat l) := by
  cases l with
  | nil => exact absurd rfl hne
  | cons d ds =>
    have hdd : d.isDigit = true := by
      have := List.all_eq_true.mp hd d (by simp)
      simpa using this
    obtain ⟨_, hplus, hminus⟩ := isDigit_ne hdd
    have hdata : (List.asString (d :: ds)).data = d :: ds := rfl
    unfold pyInt
    rw [hdata]
    simp [hplus, hminus, hd]

theorem validName_keys {c : String} (h : validName c = true) :
    ∃ ch ds, c.data = ch :: '.' :: ds ∧
      catalogKey c = some (List.asString [ch], (digitsToNat ds : Int)) ∧
      datapathKey c = catalogKey c ∧
      weightsKey c = some (List.asString [ch], []) := by
  obtain ⟨ch, ds, hdata, hch, hne, hdig⟩ := validName_split h
  have hsplit : pySplitDot c = [List.asString [ch], List.asString ds] := by
    unfold pySplitDot
    rw [hdata]
    have hnosep : ∀ d ∈ ds, d ≠ '.' := by
      intro d hdmem
      exact (isDigit_ne (by simpa using List.all_eq_true.mp hdig d hdmem)).1
    have hds : splitOnChar '.' ds = [ds] := splitOnChar_of_no_sep hnosep
    simp [splitOnChar, hds, hch]
  have hcat : catalogKey c = some (List.asString [ch], (digitsToNat ds : Int)) := by
    unfold catalogKey
    rw [hsplit]
    simp [pyInt_digits hne hdig]
  refine ⟨ch, ds, hdata, hcat, ?_, ?_⟩
  · unfold datapathKey
    have hemp : c.data.isEmpty = false := by rw [hdata]; rfl
    have htake : pyTake c 1 = List.asString [ch] := by
      unfold pyTake; rw [hdata]; rfl
    have hdrop : pyDrop c 2 = List.asString ds := by
      unfold pyDrop; rw [hdata]; rfl
    rw [hemp, hcat, htake, hdrop, pyInt_digits hne hdig]
    rfl
  · unfold weightsKey
    have hemp : c.data.isEmpty = false := by rw [hdata]; rfl
    have htake : pyTake c 1 = List.asString [ch] := by
      unfold pyTake; rw [hdata]; rfl
    rw [hemp, htake, hsplit]
    rfl

theorem datapathKeyD_eq {c : String} (h : validName c = true) :
    datapathKeyD c = catalogKeyD c := by
  obtain ⟨ch, ds, _, _, hdp, _⟩ := validName_keys h
  unfold datapathKeyD catalogKeyD
  rw [hdp]

theorem datapathKey_isSome {c : String} (h : validName c = true) :
    (datapathKey c).isSome = true := by
  obtain ⟨ch, ds, _, hcat, hdp, _⟩ := validName_keys h
  rw [hdp, hcat]
  rfl

/-- Stable sorting by a key drawn from a strict total order yields a
pairwise-ordered list. -/
theorem isort_pairwise_key {κ : Type _} {lt : κ → κ → Bool} (hso : StrictOrd lt)
    (key : α → κ) (lt' : α → α → Bool) (hk : ∀ a b, lt' a b = lt (key a) (key b))
    (l : List α) : (isort (pyLe lt') l).Pairwise (fun a b => pyLe lt' a b = true) := by
  apply isort_pairwise
  · intro a b
    have h := pyLe_total hso (key a) (key b)
    simpa [pyLe, hk] using h
  · intro a b c h1 h2
    have h1' : pyLe lt (key a) (key b) = true := by simpa [pyLe, hk] using h1
    have h2' : pyLe lt (key b) (key c) = true := by simpa [pyLe, hk] using h2
    have h3 := pyLe_trans hso h1' h2'
    simpa [pyLe, hk] using h3

/-! ## Claim C1: datapath ordering versus the catalog's compound key -/

/-- Claim C1, counterexample: for the class name `"category.3"` — the very
name shape the spec's sort-key sentence says is tolerated — the catalog key
`(x[0], int(x[1]))` of line 55 is defined (and the catalog builds fine), but
the datapath sort key of line 72 computes `int("tegory.3")` and raises
`ValueError`: no datapath sequence is produced at all, so the datapath is not
sorted by the catalog's compound key for every dataset root. -/
theorem datapath_sort_raises_on_long_class_name :
    catalogKey "category.3" = some ("category", 3) ∧
    classesNames ["category.3"] = some ["category.3"] ∧
    mkDatapath "train" [⟨"category.3", "f.npy", [[0, 0, 0]]⟩] = none :=
  ⟨by decide, by decide, by decide⟩

theorem mkDatapath_sorted (split : String) (entries : List Entry)
    (hv : ∀ e ∈ entries, validName e.cls = true) :
    ∃ dp, mkDatapath split entries = some dp ∧ List.Perm dp entries ∧
      dp.Pairwise (fun e1 e2 => pyLe catalogLtB e1.cls e2.cls = true) := by
  have hall : entries.all (fun e => (datapathKey e.cls).isSome) = true :=
    List.all_eq_true.mpr (fun e he => datapathKey_isSome (hv e he))
  unfold mkDatapath
  rw [hall]
  refine ⟨_, rfl, (isort_perm _ _).trans (isort_perm _ _), ?_⟩
  have hp : (isort (pyLe (fun e1 e2 => datapathLtB e1.cls e2.cls))
      (globSorted split entries)).Pairwise
      (fun e1 e2 => pyLe (fun e1 e2 => datapathLtB e1.cls e2.cls) e1 e2 = true) :=
    isort_pairwise_key k1LtB_strictOrd (fun e : Entry => datapathKeyD e.cls)
      (fun e1 e2 => datapathLtB e1.cls e2.cls) (fun a b => rfl) _
  have hmem : ∀ e, e ∈ isort (pyLe fun e1 e2 => datapathLtB e1.cls e2.cls)
      (globSorted split entries) → e ∈ entries := by
    intro e he
    exact ((isort_perm _ _).trans (isort_perm _ _)).mem_iff.mp he
  refine List.Pairwise.imp_of_mem ?_ hp
  intro a b ha hb hr
  have hva := hv a (hmem a ha)
  have hvb := hv b (hmem b hb)
  have heq : datapathLtB b.cls a.cls = catalogLtB b.cls a.cls := by
    unfold datapathLtB catalogLtB
    rw [datapathKeyD_eq hva, datapathKeyD_eq hvb]
  simpa [pyLe, heq] using hr

/-- Claim C1 (amended): when every class name consists of one character, a dot
and a digit string, the datapath construction succeeds, yields a permutation
of the glob matches, and the sequence is pairwise ordered by the catalog's
compound key (primary: first dot-token, secondary: numeric second token) — on
such names `datapathKey` coincides with `catalogKey`.  On any other class name
the datapath sort raises `ValueError` (see the counterexample). -/
theorem datapath_sorted_by_catalog_key (split : String) (entries : List Entry)
    (hv : ∀ e ∈ entries, validName e.cls = true) :
    ∃ dp, mkDatapath split entries = some dp ∧ List.Perm dp entries ∧
      dp.Pairwise (fun e1 e2 => pyLe catalogLtB e1.cls e2.cls = true) :=
  mkDatapath_sorted split entries hv

/-- Witness for the amended Claim C1 at a concrete root. -/
theorem datapath_sorted_by_catalog_key_witness :
    ∃ dp, mkDatapath "train"
        [⟨"b.2", "g.npy", [[1, 2, 3]]⟩, ⟨"a.10", "f.npy", [[0, 0, 0]]⟩,
         ⟨"a.9", "h.npy", [[4, 5, 6]]⟩] = some dp ∧
      List.Perm dp
        [⟨"b.2", "g.npy", [[1, 2, 3]]⟩, ⟨"a.10", "f.npy", [[0, 0, 0]]⟩,
         ⟨"a.9", "h.npy", [[4, 5, 6]]⟩] ∧
      dp.Pairwise (fun e1 e2 => pyLe catalogLtB e1.cls e2.cls = true) :=
  datapath_sorted_by_catalog_key "train"
    [⟨"b.2", "g.npy", [[1, 2, 3]]⟩, ⟨"a.10", "f.npy", [[0, 0, 0]]⟩,
     ⟨"a.9", "h.npy", [[4, 5, 6]]⟩] (by decide)

/-! ## Claims C3 and C9: the point resampler -/

theorem natLeB_total : ∀ a b : Nat, decide (a ≤ b) = true ∨ decide (b ≤ a) = true := by
  intro a b
  simp only [decide_eq_true_eq]
  omega

theorem natLeB_trans : ∀ {a b c : Nat}, decide (a ≤ b) = true → decide (b ≤ c) = true →
    decide (a ≤ c) = true := by
  intro a b c h1 h2
  simp only [decide_eq_true_eq] at h1 h2 ⊢
  omega

/-- Claim C3: resampling a non-empty point array (lines 123-130).  Under the
contract of `np.random.choice` — exactly `K` indices below `N`, distinct when
`N > K` — the sorted index list `ind` has exactly `K` entries, is ascending
(so the kept rows appear in ascending original order), stays below `N`, has no
duplicate when `N > K`, and the resampled matrix `point_set[ind, :]` is the
row list at those sorted indices, hence always has exactly `K` rows. -/
theorem resample_shape_and_order (ps0 : Mat) (K : Nat) (draw : List Nat)
    (hN : ps0.length ≠ 0) (hd : ValidDraw ps0.length K draw) :
    ∃ ind, resampleInd ps0.length draw = some ind ∧
      ind.length = K ∧
      ind.Sorted (· ≤ ·) ∧
      (∀ i ∈ ind, i < ps0.length) ∧
      (K < ps0.length → ind.Nodup) ∧
      (ind.map (fun i => ps0.getD i [])).length = K := by
  obtain ⟨hlen, hbound, hnodup⟩ := hd
  have hperm := isort_perm (fun a b => decide (a ≤ b)) draw
  refine ⟨_, by unfold resampleInd; rw [if_neg hN], ?_, ?_, ?_, ?_, ?_⟩
  · rw [hperm.length_eq, hlen]
  · have hp := isort_pairwise natLeB_total natLeB_trans draw
    exact List.Pairwise.imp (fun h => by simpa using h) hp
  · intro i hi
    exact hbound i (hperm.mem_iff.mp hi)
  · intro hKN
    exact (hperm.nodup_iff).mpr (hnodup hKN)
  · rw [List.length_map, hperm.length_eq, hlen]

/-- Witness for Claim C3: three points resampled to two (without
replacement). -/
theorem resample_shape_and_order_witness :
    ∃ ind, resampleInd ([[1], [2], [3]] : Mat).length [2, 0] = some ind ∧
      ind.length = 2 ∧
      ind.Sorted (· ≤ ·) ∧
      (∀ i ∈ ind, i < ([[1], [2], [3]] : Mat).length) ∧
      (2 < ([[1], [2], [3]] : Mat).length → ind.Nodup) ∧
      (ind.map (fun i => ([[1], [2], [3]] : Mat).getD i [])).length = 2 :=
  resample_shape_and_order [[1], [2], [3]] 2 [2, 0] (by decide)
    ⟨by decide, by decide, by decide⟩

theorem omitRanges_nil (ranges : List Nat) : omitRanges ranges [] = [] := by
  unfold omitRanges
  generalize (List.range ((ranges.length + 1) / 2)).map (fun j => ranges.length - 1 - 2 * j) = l
  induction l with
  | nil => rfl
  | cons a t ih => simpa [omitStep] using ih

/-- Claim C9: `_get_item` on a sample whose decoded point array has zero rows
fails — `np.random.choice(arange(0), ...)` raises `ValueError` (the spec's
`ResampleError`) — whatever the channel, categorical and normalization
settings.  Stated for a cache miss on an entry with an empty matrix; the
decode of an empty file is empty for either channel setting. -/
theorem getItem_fails_on_empty_points (cfg : Cfg) (cat : List String)
    (dp : List Entry) (sqrtFn : ℚ → ℚ) (cache : Cache) (index : Nat)
    (draw : List Nat) (e : Entry) (he : dp[index]? = some e)
    (hempty : e.content = []) (hmiss : cacheLookup cache index = none) :
    getItem cfg cat dp sqrtFn cache index draw = none := by
  have hdec : decode cfg e = [] := by
    unfold decode
    rw [hempty]
    by_cases h : cfg.normal_channel
    · simp [h, omitRanges_nil]
    · simp [h]
  have hfin : ∀ s, getItemFetch cfg cat dp cache index = some s →
      finishItem cfg sqrtFn draw s.1 = none := by
    intro s hs
    unfold getItemFetch at hs
    rw [hmiss] at hs
    dsimp only at hs
    rw [he] at hs
    simp only [Option.bind_eq_bind, Option.some_bind] at hs
    cases hc : classIdx cat e.cls with
    | none => rw [hc] at hs; simp at hs
    | some c =>
      rw [hc] at hs
      simp only [Option.some_bind, Option.some.injEq] at hs
      have h1 : s.1 = decode cfg e := by rw [← hs]
      rw [h1, hdec]
      unfold finishItem resampleInd
      simp
  unfold getItem
  cases hftch : getItemFetch cfg cat dp cache index with
  | none => simp
  | some s => simp [hfin s hftch]

/-- Witness for Claim C9. -/
theorem getItem_fails_on_empty_points_witness :
    getItem ⟨2, 4, true, true, 10, false, false, 7/10, 13/10, 3/10, 1/200, true, [], [], []⟩
      ["a.1"] [⟨"a.1", "f.npy", []⟩] (fun x => x) [] 0 [0, 1, 2, 3] = none :=
  getItem_fails_on_empty_points _ ["a.1"] [⟨"a.1", "f.npy", []⟩] (fun x => x) [] 0
    [0, 1, 2, 3] ⟨"a.1", "f.npy", []⟩ (by decide) rfl rfl

/-! ## Structure of `_get_item` executions -/

theorem getItemFetch_cases {cfg : Cfg} {cat : List String} {dp : List Entry}
    {cache : Cache} {index : Nat} {s : Mat × Nat × Cache}
    (h : getItemFetch cfg cat dp cache index = some s) :
    (cacheLookup cache index = some (s.1, s.2.1) ∧ s.2.2 = cache) ∨
    (∃ e, cacheLookup cache index = none ∧ dp[index]? = some e ∧
       classIdx cat e.cls = some s.2.1 ∧ s.1 = decode cfg e ∧
       s.2.2 = (if cache.length < cfg.cache_size
         then cache ++ [(index, (decode cfg e, s.2.1))] else cache)) := by
  unfold getItemFetch at h
  cases hcl : cacheLookup cache index with
  | some v =>
    left
    rw [hcl] at h
    obtain ⟨ps, c⟩ := v
    dsimp only at h
    injection h with h1
    subst h1
    exact ⟨rfl, rfl⟩
  | none =>
    right
    rw [hcl] at h
    dsimp only at h
    cases he : dp[index]? with
    | none => rw [he] at h; simp at h
    | some e =>
      rw [he] at h
      simp only [Option.bind_eq_bind, Option.some_bind] at h
      cases hc : classIdx cat e.cls with
      | none => rw [hc] at h; simp at h
      | some c =>
        rw [hc] at h
        simp only [Option.some_bind, Option.some.injEq] at h
        subst h
        exact ⟨e, rfl, rfl, hc, rfl, rfl⟩

theorem getItem_decomp {cfg : Cfg} {cat : List String} {dp : List Entry}
    {sqrtFn : ℚ → ℚ} {cache : Cache} {index : Nat} {draw : List Nat}
    {out : Mat × Nat} {cache' : Cache}
    (h : getItem cfg cat dp sqrtFn cache index draw = some (out, cache')) :
    ∃ s, getItemFetch cfg cat dp cache index = some s ∧
      finishItem cfg sqrtFn draw s.1 = some out.1 ∧ out.2 = s.2.1 ∧
      cache' = s.2.2 := by
  unfold getItem at h
  cases hf : getItemFetch cfg cat dp cache index with
  | none => rw [hf] at h; simp at h
  | some s =>
    rw [hf] at h
    simp only [Option.bind_eq_bind, Option.some_bind] at h
    cases hfin : finishItem cfg sqrtFn draw s.1 with
    | none => rw [hfin] at h; simp at h
    | some ps =>
      rw [hfin] at h
      simp only [Option.some_bind, Option.some.injEq] at h
      injection h with h1 h2
      refine ⟨s, rfl, ?_, ?_, h2.symm⟩
      · rw [hfin, ← h1]
      · rw [← h1]

theorem cacheLookup_append {cache : Cache} {k : Nat} {v : Mat × Nat}
    (tail : Cache) (h : cacheLookup cache k = some v) :
    cacheLookup (cache ++ tail) k = some v := by
  unfold cacheLookup at h ⊢
  cases hf : cache.find? (fun p => p.1 == k) with
  | none => rw [hf] at h; simp at h
  | some p =>
    rw [hf] at h
    rw [List.find?_append, hf]
    simpa using h

/-- Existing cache entries survive any successful `_get_item` call with their
stored value unchanged. -/
theorem getItem_cache_mono {cfg : Cfg} {cat : List String} {dp : List Entry}
    {sqrtFn : ℚ → ℚ} {cache : Cache} {index : Nat} {draw : List Nat}
    {out : Mat × Nat} {cache' : Cache}
    (h : getItem cfg cat dp sqrtFn cache index draw = some (out, cache')) :
    ∀ k v, cacheLookup cache k = some v → cacheLookup cache' k = some v := by
  intro k v hk
  obtain ⟨s, hf, _, _, hc⟩ := getItem_decomp h
  rcases getItemFetch_cases hf with ⟨_, hcc⟩ | ⟨e, _, _, _, _, hcc⟩ <;> rw [hc, hcc]
  · exact hk
  · by_cases hsz : cache.length < cfg.cache_size
    · rw [if_pos hsz]; exact cacheLookup_append _ hk
    · rw [if_neg hsz]; exact hk

/-- Existing cache entries survive the `next_batch` loop. -/
theorem batchLoop_cache_mono {cfg : Cfg} {cat : List String} {dp : List Entry}
    {weights : List ℚ} {sqrtFn : ℚ → ℚ} {idxs : List Nat} {start C : Nat}
    {draws : Nat → List Nat} :
    ∀ (i rem : Nat) (cache : Cache) out cache',
      batchLoop cfg cat dp weights sqrtFn idxs start C draws i rem cache =
        some (out, cache') →
      ∀ k v, cacheLookup cache k = some v → cacheLookup cache' k = some v := by
  intro i rem
  induction rem generalizing i with
  | zero =>
    intro cache out cache' h k v hk
    unfold batchLoop at h
    injection h with h1
    injection h1 with _ h2
    rw [← h2]
    exact hk
  | succ rem ih =>
    intro cache out cache' h k v hk
    unfold batchLoop at h
    cases hidx : idxs[start + i]? with
    | none => rw [hidx] at h; simp at h
    | some idx =>
      rw [hidx] at h
      simp only [Option.bind_eq_bind, Option.some_bind] at h
      cases hg : getItem cfg cat dp sqrtFn cache idx (draws i) with
      | none => rw [hg] at h; simp at h
      | some r =>
        rw [hg] at h
        simp only [Option.some_bind] at h
        by_cases hsh : r.1.1.length = cfg.npoints ∧ ∀ row ∈ r.1.1, row.length = C
        · rw [if_pos hsh] at h
          cases hw : weights[r.1.2]? with
          | none => rw [hw] at h; simp at h
          | some w =>
            rw [hw] at h
            simp only [Option.some_bind] at h
            cases hrest : batchLoop cfg cat dp weights sqrtFn idxs start C draws
                (i + 1) rem r.2 with
            | none => rw [hrest] at h; simp at h
            | some rest =>
              rw [hrest] at h
              simp only [Option.some_bind, Option.some.injEq] at h
              injection h with h1 h2
              rw [← h2]
              exact ih (i + 1) r.2 rest.1 rest.2 (by rw [hrest]) k v
                (getItem_cache_mono hg k v hk)
        · rw [if_neg hsh] at h
          simp at h

/-- Decomposition of any successful `next_batch` call: the `num_channel`
probe ran first (threading its cache effect), the batch size was non-negative,
the loop ran over `[start, end)` of the permutation, the cursor advanced by
one, and the returned data is the (possibly augmented) stacked list. -/
theorem nextBatch_decomp {cfg : Cfg} {cat : List String} {dp : List Entry}
    {weights : List ℚ} {sqrtFn : ℚ → ℚ} {st : IterSt} {cache : Cache}
    {probeDraw : List Nat} {draws : Nat → List Nat} {augment : Bool}
    {ad : AugDraws} {out : List Mat × List Nat × List ℚ} {cache' : Cache}
    {st' : IterSt}
    (h : nextBatch cfg cat dp weights sqrtFn st cache probeDraw draws augment ad =
      some (out, cache', st')) :
    ∃ pr cache0 res,
      getItem cfg cat dp sqrtFn cache 0 probeDraw = some (pr, cache0) ∧
      st.batch_idx * cfg.batch_size ≤ min ((st.batch_idx + 1) * cfg.batch_size) dp.length ∧
      batchLoop cfg cat dp weights sqrtFn st.idxs (st.batch_idx * cfg.batch_size)
        (matWidth pr.1) draws 0
        (min ((st.batch_idx + 1) * cfg.batch_size) dp.length -
          st.batch_idx * cfg.batch_size) cache0 = some (res, cache') ∧
      st' = { st with batch_idx := st.batch_idx + 1 } ∧
      out = ((if augment then augmentBatch cfg ad res.1 else res.1),
        res.2.1, res.2.2) := by
  unfold nextBatch numChannel at h
  cases hg : getItem cfg cat dp sqrtFn cache 0 probeDraw with
  | none => rw [hg] at h; simp at h
  | some prc =>
    rw [hg] at h
    simp only [Option.map_some', Option.bind_eq_bind, Option.some_bind] at h
    by_cases hle : st.batch_idx * cfg.batch_size ≤
        min ((st.batch_idx + 1) * cfg.batch_size) dp.length
    · rw [if_pos hle] at h
      cases hloop : batchLoop cfg cat dp weights sqrtFn st.idxs
          (st.batch_idx * cfg.batch_size) (matWidth prc.1.1) draws 0
          (min ((st.batch_idx + 1) * cfg.batch_size) dp.length -
            st.batch_idx * cfg.batch_size) prc.2 with
      | none => rw [hloop] at h; simp at h
      | some resc =>
        rw [hloop] at h
        simp only [Option.some_bind, Option.some.injEq] at h
        injection h with h1 h23
        injection h23 with h2 h3
        refine ⟨prc.1, prc.2, resc.1, rfl, hle, ?_, h3.symm, h1.symm⟩
        rw [← h2]
        exact hloop
    · rw [if_neg hle] at h
      simp at h

/-- Claim C6: the sample cache is append-only and its entries are immutable.
(a) Any successful `_get_item` call leaves every pre-existing cache entry in
place, unchanged — decoding inserts fresh keys only, and every later stage
(`point_set[ind, :]` fancy-indexing copy, concatenations, the in-place
normalization of the copy) works on fresh arrays.  (b) A cache hit returns
data derived from the stored `(point_set, cls)` pair by the post-cache
transform alone and does not write the cache at all.  (c) The same
preservation holds across a whole `next_batch` call (which runs `_get_item`
once for `num_channel` and once per example), for every normalization,
categorical-expansion and positional-channel setting. -/
theorem cache_entries_immutable (cfg : Cfg) (cat : List String) (dp : List Entry)
    (sqrtFn : ℚ → ℚ) (cache : Cache) :
    (∀ index draw out cache',
       getItem cfg cat dp sqrtFn cache index draw = some (out, cache') →
       ∀ k v, cacheLookup cache k = some v → cacheLookup cache' k = some v) ∧
    (∀ index draw ps0 c0, cacheLookup cache index = some (ps0, c0) →
       getItem cfg cat dp sqrtFn cache index draw =
         (finishItem cfg sqrtFn draw ps0).map (fun ps => ((ps, c0), cache))) ∧
    (∀ weights st probeDraw draws augment ad out cache' st',
       nextBatch cfg cat dp weights sqrtFn st cache probeDraw draws augment ad =
         some (out, cache', st') →
       ∀ k v, cacheLookup cache k = some v → cacheLookup cache' k = some v) := by
  refine ⟨?_, ?_, ?_⟩
  · intro index draw out cache' h
    exact getItem_cache_mono h
  · intro index draw ps0 c0 hhit
    unfold getItem getItemFetch
    rw [hhit]
    dsimp only
    cases hfin : finishItem cfg sqrtFn draw ps0 <;> simp [hfin]
  · intro weights st probeDraw draws augment ad out cache' st' h k v hk
    obtain ⟨pr, cache0, res, hg, _, hloop, _, _⟩ := nextBatch_decomp h
    exact batchLoop_cache_mono _ _ _ _ _ hloop k v (getItem_cache_mono hg k v hk)

/-- Witness for Claim C6: a concrete cache hit returns the transform of the
stored pair and leaves the one-entry cache exactly as it was. -/
theorem cache_entries_immutable_witness :
    getItem ⟨2, 1, false, false, 10, false, false, 7/10, 13/10, 3/10, 1/200, false, [], [], []⟩
      ["a.1"] [⟨"a.1", "f.npy", [[5, 6, 7]]⟩] (fun x => x)
      [(0, ([[8, 9, 10]], 0))] 0 [0] =
    (finishItem ⟨2, 1, false, false, 10, false, false, 7/10, 13/10, 3/10, 1/200, false, [], [], []⟩
      (fun x => x) [0] [[8, 9, 10]]).map
        (fun ps => ((ps, 0), [(0, ([[8, 9, 10]], 0))])) :=
  (cache_entries_immutable _ ["a.1"] [⟨"a.1", "f.npy", [[5, 6, 7]]⟩] (fun x => x)
    [(0, ([[8, 9, 10]], 0))]).2.1 0 [0] [[8, 9, 10]] 0 rfl

/-! ## Channel-width bookkeeping through `_get_item` (Claim C10) -/

theorem optMap_mem {f : α → Option β} :
    ∀ {l : List α} {l' : List β}, optMap f l = some l' →
      ∀ b ∈ l', ∃ a ∈ l, f a = some b
  | [], l', h => by
    unfold optMap at h
    injection h with h1
    subst h1
    intro b hb
    exact absurd hb (by simp)
  | a :: t, l', h => by
    unfold optMap at h
    cases hf : f a with
    | none => rw [hf] at h; simp at h
    | some b0 =>
      rw [hf] at h
      simp only [Option.some_bind] at h
      cases ht : optMap f t with
      | none => rw [ht] at h; simp at h
      | some bs =>
        rw [ht] at h
        simp only [Option.map_some', Option.some.injEq] at h
        subst h
        intro b hb
        rcases List.mem_cons.mp hb with rfl | hb
        · exact ⟨a, by simp, hf⟩
        · obtain ⟨a', ha', hfa'⟩ := optMap_mem ht b hb
          exact ⟨a', List.mem_cons_of_mem _ ha', hfa'⟩

theorem optMap_length {f : α → Option β} :
    ∀ {l : List α} {l' : List β}, optMap f l = some l' → l'.length = l.length
  | [], l', h => by
    unfold optMap at h
    injection h with h1
    subst h1
    rfl
  | a :: t, l', h => by
    unfold optMap at h
    cases hf : f a with
    | none => rw [hf] at h; simp at h
    | some b0 =>
      rw [hf] at h
      simp only [Option.some_bind] at h
      cases ht : optMap f t with
      | none => rw [ht] at h; simp at h
      | some bs =>
        rw [ht] at h
        simp only [Option.map_some', Option.some.injEq] at h
        subst h
        simpa using optMap_length ht

theorem oneHot_length {size : Nat} {v : ℚ} {oh : List ℚ}
    (h : oneHot size v = some oh) : oh.length = size ∧ 1 ≤ size := by
  unfold oneHot at h
  by_cases hc : -(size : Int) ≤ pyTruncInt v ∧ pyTruncInt v < size
  · rw [if_pos hc] at h
    injection h with h1
    subst h1
    refine ⟨by rw [List.length_map, List.length_range], ?_⟩
    rcases hc with ⟨h1, h2⟩
    by_contra hz
    have : size = 0 := by omega
    subst this
    simp at h1 h2
    omega
  · rw [if_neg hc] at h
    exact absurd h (by simp)

/-- A successful categorical expansion turns rows of uniform width `w` into
rows of uniform width `w - 1 + size`, at least `w` wide again whenever the
matrix has a row. -/
theorem catStep_width {ci size : Nat} {m m' : Mat} {w : Nat}
    (hw : ∀ r ∈ m, r.length = w) (hcw : 3 ≤ w)
    (h : catStep ci size m = some m') :
    ∃ w', 3 ≤ w' ∧ ∀ r ∈ m', r.length = w' := by
  unfold catStep at h
  by_cases hall : m.all (fun r => decide (ci < r.length)) = true
  · rw [if_pos hall] at h
    cases m with
    | nil =>
      unfold optMap at h
      injection h with h1
      subst h1
      exact ⟨w, hcw, by simp⟩
    | cons r0 t =>
      have hsz : 1 ≤ size := by
        obtain ⟨b0, hb0⟩ : ∃ b0, (oneHot size (r0.getD ci 0)).map
            (fun oh => r0.take ci ++ oh ++ r0.drop (ci + 1)) = some b0 := by
          unfold optMap at h
          cases hf : (oneHot size (r0.getD ci 0)).map
              (fun oh => r0.take ci ++ oh ++ r0.drop (ci + 1)) with
          | none => rw [hf] at h; simp at h
          | some b0 => exact ⟨b0, rfl⟩
        cases hoh : oneHot size (r0.getD ci 0) with
        | none => rw [hoh] at hb0; simp at hb0
        | some oh => exact (oneHot_length hoh).2
      refine ⟨w - 1 + size, by omega, ?_⟩
      intro r hr
      obtain ⟨a, ha, hfa⟩ := optMap_mem h r hr
      have haw : a.length = w := hw a ha
      have hci : ci < a.length := by
        have := List.all_eq_true.mp hall a ha
        simpa using this
      cases hoh : oneHot size (a.getD ci 0) with
      | none => rw [hoh] at hfa; simp at hfa
      | some oh =>
        rw [hoh] at hfa
        simp only [Option.map_some', Option.some.injEq] at hfa
        subst hfa
        have hohl := (oneHot_length hoh).1
        simp only [List.length_append, List.length_take, List.length_drop, hohl]
        omega
  · rw [if_neg hall] at h
    exact absurd h (by simp)

/-- Width bookkeeping across the whole categorical loop. -/
theorem catSteps_width :
    ∀ {steps : List (Nat × Nat)} {m m' : Mat} {w : Nat},
      (∀ r ∈ m, r.length = w) → 3 ≤ w → catSteps steps m = some m' →
      ∃ w', 3 ≤ w' ∧ ∀ r ∈ m', r.length = w'
  | [], m, m', w, hw, hcw, h => by
    unfold catSteps at h
    injection h with h1
    subst h1
    exact ⟨w, hcw, hw⟩
  | (ci, sz) :: rest, m, m', w, hw, hcw, h => by
    unfold catSteps at h
    cases hs : catStep ci sz m with
    | none => rw [hs] at h; simp at h
    | some m1 =>
      rw [hs] at h
      simp only [Option.some_bind] at h
      obtain ⟨w1, hw1, hall1⟩ := catStep_width hw hcw hs
      exact catSteps_width hall1 hw1 h

theorem addNC_width {K : Nat} {m m' : Mat} {w : Nat}
    (hw : ∀ r ∈ m, r.length = w) (h : addNC K m = some m') :
    ∀ r ∈ m', r.length = w + 1 := by
  unfold addNC at h
  by_cases hl : m.length = K
  · rw [if_pos hl] at h
    injection h with h1
    subst h1
    intro r hr
    simp only [List.mem_map] at hr
    obtain ⟨p, hp, hpr⟩ := hr
    have hmem : p.2 ∈ m := List.snd_mem_of_mem_enum hp
    rw [← hpr]
    simp [hw p.2 hmem]
  · rw [if_neg hl] at h
    exact absurd h (by simp)

theorem pc_normalize_width {sqrtFn : ℚ → ℚ} {pc : Mat} {w3 : Nat}
    (hw : ∀ r ∈ pc, r.length = w3) :
    ∀ r ∈ pc_normalize sqrtFn pc, r.length = w3 := by
  intro r hr
  unfold pc_normalize at hr
  simp only [List.mem_map] at hr
  obtain ⟨r1, hr1, hr1r⟩ := hr
  obtain ⟨r0, hr0, hr0r⟩ := hr1
  have hcent : ((List.range (pc.headD []).length).map
      (fun j => (pc.map (fun r => r.getD j 0)).sum / (pc.length : ℚ))).length =
      (pc.headD []).length := by
    rw [List.length_map, List.length_range]
  have hhead : (pc.headD []).length = w3 := by
    cases pc with
    | nil => exact absurd hr0 (by simp)
    | cons p0 t => exact hw p0 (by simp)
  rw [← hr1r, ← hr0r]
  simp only [List.length_map, List.length_zipWith, hcent, hhead, hw r0 hr0,
    List.length_range]
  omega

theorem applyNormalize_width {sqrtFn : ℚ → ℚ} {m : Mat} {w : Nat}
    (hw : ∀ r ∈ m, r.length = w) :
    ∀ r ∈ applyNormalize sqrtFn m, r.length = w := by
  intro r hr
  unfold applyNormalize at hr
  simp only [List.mem_map] at hr
  obtain ⟨p, hp, hpr⟩ := hr
  obtain ⟨hp1, hp2⟩ := List.of_mem_zip hp
  have hw3 : ∀ r' ∈ m.map (List.take 3), r'.length = min 3 w := by
    intro r' hr'
    simp only [List.mem_map] at hr'
    obtain ⟨r0, hr0, hr0r⟩ := hr'
    rw [← hr0r]
    simp [hw r0 hr0]
  have hlen2 : p.2.length = min 3 w := pc_normalize_width hw3 p.2 hp2
  rw [← hpr]
  simp only [List.length_append, List.length_drop, hlen2, hw p.1 hp1]
  omega

theorem omitStep_width {ranges : List Nat} {i : Nat} {m : Mat} {w : Nat}
    (hw : ∀ r ∈ m, r.length = w) :
    ∀ r ∈ omitStep ranges i m, r.length = omitStepW ranges i w := by
  intro r hr
  unfold omitStep at hr
  simp only [List.mem_map] at hr
  obtain ⟨r0, hr0, hr0r⟩ := hr
  rw [← hr0r]
  unfold omitStepW
  simp [hw r0 hr0]

theorem omitRanges_width {ranges : List Nat} {m : Mat} {w : Nat}
    (hw : ∀ r ∈ m, r.length = w) :
    ∀ r ∈ omitRanges ranges m, r.length = omitWidth ranges w := by
  unfold omitRanges omitWidth
  generalize (List.range ((ranges.length + 1) / 2)).map
    (fun j => ranges.length - 1 - 2 * j) = idx
  induction idx generalizing m w with
  | nil => exact hw
  | cons i t ih =>
    simp only [List.foldl_cons]
    exact ih (omitStep_width hw)

theorem decode_width {cfg : Cfg} {e : Entry} {w : Nat}
    (hw : ∀ r ∈ e.content, r.length = w) :
    ∀ r ∈ decode cfg e, r.length = decodeWidth cfg w := by
  unfold decode decodeWidth
  by_cases hnc : cfg.normal_channel
  · rw [if_pos hnc, if_pos hnc]
    exact omitRanges_width hw
  · rw [if_neg hnc, if_neg hnc]
    intro r hr
    simp only [List.mem_map] at hr
    obtain ⟨r0, hr0, hr0r⟩ := hr
    rw [← hr0r]
    simp [hw r0 hr0]

theorem catStep_width' {ci size : Nat} {m m' : Mat} {w : Nat}
    (hw : ∀ r ∈ m, r.length = w) (h : catStep ci size m = some m') :
    (∀ r ∈ m', r.length = w - 1 + size) ∧ m'.length = m.length ∧
    (m ≠ [] → 1 ≤ size ∧ 1 ≤ w) := by
  unfold catStep at h
  by_cases hall : m.all (fun r => decide (ci < r.length)) = true
  · rw [if_pos hall] at h
    refine ⟨?_, optMap_length h, ?_⟩
    · intro r hr
      obtain ⟨a, ha, hfa⟩ := optMap_mem h r hr
      have haw : a.length = w := hw a ha
      have hci : ci < a.length := by
        have := List.all_eq_true.mp hall a ha
        simpa using this
      cases hoh : oneHot size (a.getD ci 0) with
      | none => rw [hoh] at hfa; simp at hfa
      | some oh =>
        rw [hoh] at hfa
        simp only [Option.map_some', Option.some.injEq] at hfa
        subst hfa
        have hohl := (oneHot_length hoh).1
        simp only [List.length_append, List.length_take, List.length_drop, hohl]
        omega
    · intro hne
      cases m with
      | nil => exact absurd rfl hne
      | cons r0 t =>
        have hci : ci < r0.length := by
          have := List.all_eq_true.mp hall r0 (by simp)
          simpa using this
        have hr0 : r0.length = w := hw r0 (by simp)
        refine ⟨?_, by omega⟩
        obtain ⟨b0, hb0⟩ : ∃ b0, (oneHot size (r0.getD ci 0)).map
            (fun oh => r0.take ci ++ oh ++ r0.drop (ci + 1)) = some b0 := by
          unfold optMap at h
          cases hf : (oneHot size (r0.getD ci 0)).map
              (fun oh => r0.take ci ++ oh ++ r0.drop (ci + 1)) with
          | none => rw [hf] at h; simp at h
          | some b0 => exact ⟨b0, rfl⟩
        cases hoh : oneHot size (r0.getD ci 0) with
        | none => rw [hoh] at hb0; simp at hb0
        | some oh => exact (oneHot_length hoh).2
  · rw [if_neg hall] at h
    exact absurd h (by simp)

theorem catSteps_width' :
    ∀ {steps : List (Nat × Nat)} {m m' : Mat} {w : Nat},
      (∀ r ∈ m, r.length = w) → catSteps steps m = some m' →
      (∀ r ∈ m', r.length = catWidth steps w) ∧ m'.length = m.length ∧
      (m ≠ [] → w ≤ catWidth steps w)
  | [], m, m', w, hw, h => by
    unfold catSteps at h
    injection h with h1
    subst h1
    exact ⟨hw, rfl, fun _ => Nat.le_refl w⟩
  | (ci, sz) :: rest, m, m', w, hw, h => by
    unfold catSteps at h
    cases hs : catStep ci sz m with
    | none => rw [hs] at h; simp at h
    | some m1 =>
      rw [hs] at h
      simp only [Option.some_bind] at h
      obtain ⟨hall1, hlen1, hsz1⟩ := catStep_width' hw hs
      obtain ⟨hall2, hlen2, hge2⟩ := catSteps_width' hall1 h
      refine ⟨hall2, hlen2.trans hlen1, ?_⟩
      intro hne
      obtain ⟨hs1, hw1⟩ := hsz1 hne
      have hm1ne : m1 ≠ [] := by
        intro h0
        rw [h0] at hlen1
        cases m with
        | nil => exact hne rfl
        | cons a t => simp at hlen1
      have := hge2 hm1ne
      unfold catWidth
      omega

theorem addNC_length {K : Nat} {m m' : Mat} (h : addNC K m = some m') :
    m'.length = m.length ∧ m.length = K := by
  unfold addNC at h
  by_cases hl : m.length = K
  · rw [if_pos hl] at h
    injection h with h1
    subst h1
    simp [List.enum_length, hl]
  · rw [if_neg hl] at h
    exact absurd h (by simp)

theorem pc_normalize_length (sqrtFn : ℚ → ℚ) (pc : Mat) :
    (pc_normalize sqrtFn pc).length = pc.length := by
  unfold pc_normalize
  simp

theorem applyNormalize_length (sqrtFn : ℚ → ℚ) (m : Mat) :
    (applyNormalize sqrtFn m).length = m.length := by
  unfold applyNormalize
  simp [pc_normalize_length]

theorem catSteps_length :
    ∀ {steps : List (Nat × Nat)} {m m' : Mat},
      catSteps steps m = some m' → m'.length = m.length
  | [], m, m', h => by
    unfold catSteps at h
    injection h with h1
    rw [← h1]
  | (ci, sz) :: rest, m, m', h => by
    unfold catSteps at h
    cases hs : catStep ci sz m with
    | none => rw [hs] at h; simp at h
    | some m1 =>
      rw [hs] at h
      simp only [Option.some_bind] at h
      have h1 : m1.length = m.length := by
        unfold catStep at hs
        by_cases hall : m.all (fun r => decide (ci < r.length)) = true
        · rw [if_pos hall] at hs; exact optMap_length hs
        · rw [if_neg hall] at hs; exact absurd hs (by simp)
      exact (catSteps_length h).trans h1

/-- Shape of any successful `finishItem` run: every output row has the width
`outWidth cfg w` computed from the uniform decoded width `w`, the output row
count equals the drawn index count, and a non-empty output means the
categorical stages could only widen. -/
theorem finishItem_width {cfg : Cfg} {sqrtFn : ℚ → ℚ} {draw : List Nat}
    {ps0 : Mat} {out : Mat} {w : Nat}
    (hw : ∀ r ∈ ps0, r.length = w)
    (h : finishItem cfg sqrtFn draw ps0 = some out) :
    (∀ r ∈ out, r.length = outWidth cfg w) ∧ out.length = draw.length ∧
    (out ≠ [] →
      w ≤ catWidth (cfg.to_categorical_indexes.zip cfg.to_categorical_sizes) w) := by
  unfold finishItem at h
  cases hri : resampleInd ps0.length draw with
  | none => rw [hri] at h; simp at h
  | some ind =>
    rw [hri] at h
    simp only [Option.bind_eq_bind, Option.some_bind] at h
    by_cases hall : ind.all (fun i => decide (i < ps0.length)) = true
    · rw [if_pos hall] at h
      have hindlen : ind.length = draw.length := by
        unfold resampleInd at hri
        by_cases h0 : ps0.length = 0
        · rw [if_pos h0] at hri; simp at hri
        · rw [if_neg h0] at hri
          injection hri with h1
          rw [← h1, isort_length]
      have hps1 : ∀ r ∈ ind.map (fun i => ps0.getD i []), r.length = w := by
        intro r hr
        simp only [List.mem_map] at hr
        obtain ⟨i, hi, hir⟩ := hr
        have hilt : i < ps0.length := by
          have := List.all_eq_true.mp hall i hi
          simpa using this
        have hg : ps0.getD i [] = ps0[i] := List.getD_eq_getElem ps0 [] hilt
        rw [← hir, hg]
        exact hw _ (List.getElem_mem hilt)
      have hps1len : (ind.map (fun i => ps0.getD i [])).length = draw.length := by
        rw [List.length_map, hindlen]
      cases hcs : catSteps (cfg.to_categorical_indexes.zip cfg.to_categorical_sizes)
          (ind.map (fun i => ps0.getD i [])) with
      | none => rw [hcs] at h; simp at h
      | some ps2 =>
        rw [hcs] at h
        simp only [Option.some_bind] at h
        obtain ⟨hw2, hlen2, hge2⟩ := catSteps_width' hps1 hcs
        have hlen2' : ps2.length = draw.length := by rw [hlen2, hps1len]
        have hne2 : ps2 ≠ [] →
            w ≤ catWidth (cfg.to_categorical_indexes.zip cfg.to_categorical_sizes) w := by
          intro hne
          apply hge2
          intro h0
          apply hne
          rw [h0] at hlen2
          simpa using List.length_eq_zero.mp (by rw [hlen2]; rfl)
        have hmain : ∀ (ps3 : Mat) (d : Nat),
            (∀ r ∈ ps3, r.length =
              catWidth (cfg.to_categorical_indexes.zip cfg.to_categorical_sizes) w + d) →
            ps3.length = ps2.length →
            outWidth cfg w = (if cfg.normal_channel
              then catWidth (cfg.to_categorical_indexes.zip cfg.to_categorical_sizes) w + d
              else min 3 (catWidth (cfg.to_categorical_indexes.zip cfg.to_categorical_sizes) w + d)) →
            (∀ r ∈ (if cfg.normal_channel
                then (if cfg.normalize then applyNormalize sqrtFn ps3 else ps3)
                else ((if cfg.normalize then applyNormalize sqrtFn ps3 else ps3).map
                  (List.take 3))), r.length = outWidth cfg w) ∧
            (if cfg.normal_channel
              then (if cfg.normalize then applyNormalize sqrtFn ps3 else ps3)
              else ((if cfg.normalize then applyNormalize sqrtFn ps3 else ps3).map
                (List.take 3))).length = draw.length ∧
            ((if cfg.normal_channel
              then (if cfg.normalize then applyNormalize sqrtFn ps3 else ps3)
              else ((if cfg.normalize then applyNormalize sqrtFn ps3 else ps3).map
                (List.take 3))) ≠ [] →
              w ≤ catWidth (cfg.to_categorical_indexes.zip cfg.to_categorical_sizes) w) := by
          intro ps3 d hw3 hlen3 houtw
          set w2 := catWidth (cfg.to_categorical_indexes.zip cfg.to_categorical_sizes) w + d
            with hw2def
          set ps4 := if cfg.normalize then applyNormalize sqrtFn ps3 else ps3 with hps4
          have hw4 : ∀ r' ∈ ps4, r'.length = w2 := by
            rw [hps4]
            by_cases hnorm : cfg.normalize = true
            · rw [if_pos hnorm]; exact applyNormalize_width hw3
            · rw [if_neg hnorm]; exact hw3
          have hlen4 : ps4.length = draw.length := by
            rw [hps4]
            by_cases hnorm : cfg.normalize = true
            · rw [if_pos hnorm, applyNormalize_length, hlen3, hlen2']
            · rw [if_neg hnorm, hlen3, hlen2']
          refine ⟨?_, ?_, ?_⟩
          · intro r hr
            rw [houtw]
            by_cases hc : cfg.normal_channel = true
            · rw [if_pos hc] at hr
              rw [if_pos hc]
              exact hw4 r hr
            · rw [if_neg hc] at hr
              rw [if_neg hc]
              simp only [List.mem_map] at hr
              obtain ⟨r0, hr0, hr0r⟩ := hr
              rw [← hr0r]
              simp [hw4 r0 hr0]
          · by_cases hc : cfg.normal_channel = true
            · rw [if_pos hc]
              exact hlen4
            · rw [if_neg hc, List.length_map]
              exact hlen4
          · intro hne
            apply hne2
            intro h0
            apply hne
            have hps3nil : ps3 = [] := by
              apply List.length_eq_zero.mp
              rw [hlen3, h0]
              rfl
            rw [hps4, hps3nil]
            by_cases hc : cfg.normal_channel = true <;>
              by_cases hnorm : cfg.normalize = true <;>
              simp [hc, hnorm, applyNormalize, pc_normalize]
        by_cases hnci : cfg.add_n_c_info = true
        · rw [if_pos hnci] at h
          cases hnc : addNC cfg.npoints ps2 with
          | none => rw [hnc] at h; simp at h
          | some ps3 =>
            rw [hnc] at h
            simp only [Option.some_bind, Option.some.injEq] at h
            subst h
            exact hmain ps3 1 (addNC_width hw2 hnc) (addNC_length hnc).1
              (by simp [outWidth, hnci])
        · rw [if_neg hnci] at h
          simp only [Option.some.injEq] at h
          subst h
          exact hmain ps2 0 (by simpa using hw2) rfl
            (by simp [outWidth, hnci])
    · rw [if_neg hall] at h
      simp at h

theorem CacheOK_nil (cfg : Cfg) (cat : List String) (dp : List Entry) :
    CacheOK cfg cat dp [] := by
  intro k ps c h
  simp [cacheLookup] at h

theorem cacheLookup_append_cases {cache : Cache} {i k : Nat} {v w : Mat × Nat}
    (h : cacheLookup (cache ++ [(i, v)]) k = some w) :
    cacheLookup cache k = some w ∨ (k = i ∧ w = v) := by
  unfold cacheLookup at h ⊢
  rw [List.find?_append] at h
  cases hf : cache.find? (fun p => p.1 == k) with
  | some p => rw [hf] at h; exact Or.inl h
  | none =>
    rw [hf] at h
    simp only [Option.none_or] at h
    right
    by_cases hik : i == k
    · simp only [List.find?_cons, hik] at h
      simp only [Option.map_some', Option.some.injEq] at h
      have hik' : i = k := by simpa using hik
      exact ⟨hik'.symm, h.symm⟩
    · simp only [List.find?_cons, hik] at h
      simp at h

theorem getItem_preserves_CacheOK {cfg : Cfg} {cat : List String} {dp : List Entry}
    {sqrtFn : ℚ → ℚ} {cache : Cache} {index : Nat} {draw : List Nat}
    {out : Mat × Nat} {cache' : Cache}
    (hok : CacheOK cfg cat dp cache)
    (h : getItem cfg cat dp sqrtFn cache index draw = some (out, cache')) :
    CacheOK cfg cat dp cache' := by
  obtain ⟨s, hf, _, _, hc⟩ := getItem_decomp h
  rcases getItemFetch_cases hf with ⟨_, hcc⟩ | ⟨e, _, he, hcls, _, hcc⟩
  · rw [hc, hcc]; exact hok
  · rw [hc, hcc]
    by_cases hsz : cache.length < cfg.cache_size
    · rw [if_pos hsz]
      intro k ps c hk
      rcases cacheLookup_append_cases hk with hk | ⟨rfl, hv⟩
      · exact hok k ps c hk
      · injection hv with hv1 hv2
        subst hv1
        subst hv2
        exact ⟨e, he, rfl, hcls⟩
    · rw [if_neg hsz]; exact hok

theorem decode_rows_three {cfg : Cfg} {e : Entry} (hnc : cfg.normal_channel = false)
    (hraw : ∀ r ∈ e.content, 3 ≤ r.length) : ∀ r ∈ decode cfg e, r.length = 3 := by
  unfold decode
  rw [hnc]
  simp only [Bool.false_eq_true, if_false]
  intro r hr
  simp only [List.mem_map] at hr
  obtain ⟨r0, hr0, hr0r⟩ := hr
  rw [← hr0r]
  have := hraw r0 hr0
  rw [List.length_take]
  omega

/-- Claim C10: with `normal_channel=False`, every point set a successful
`_get_item` returns has exactly three channels, for every `add_n_c_info` and
categorical-expansion setting: the decode keeps only the first three columns
and skips range omission, and the final truncation discards the categorical
widening and the appended positional channel again.  (The point files carry at
least the three coordinate columns, and the cache only ever holds decoded
entries.) -/
theorem getItem_three_channels_no_normals (cfg : Cfg) (cat : List String)
    (dp : List Entry) (sqrtFn : ℚ → ℚ) (cache : Cache) (index : Nat)
    (draw : List Nat) (out : Mat × Nat) (cache' : Cache)
    (hnc : cfg.normal_channel = false)
    (hraw : ∀ e ∈ dp, ∀ r ∈ e.content, 3 ≤ r.length)
    (hok : CacheOK cfg cat dp cache)
    (h : getItem cfg cat dp sqrtFn cache index draw = some (out, cache')) :
    ∀ r ∈ out.1, r.length = 3 := by
  obtain ⟨s, hf, hfin, _, _⟩ := getItem_decomp h
  have hs1 : ∃ e, dp[index]? = some e ∧ s.1 = decode cfg e := by
    rcases getItemFetch_cases hf with ⟨hcl, _⟩ | ⟨e, _, he, _, hdec, _⟩
    · obtain ⟨e, he, hdec, _⟩ := hok index s.1 s.2.1 hcl
      exact ⟨e, he, hdec⟩
    · exact ⟨e, he, hdec⟩
  obtain ⟨e, he, hdec⟩ := hs1
  have hedp : e ∈ dp := by
    obtain ⟨hlt, hgl⟩ := List.getElem?_eq_some.mp he
    rw [← hgl]
    exact List.getElem_mem hlt
  have hrows : ∀ r ∈ s.1, r.length = 3 := by
    rw [hdec]
    exact decode_rows_three hnc (hraw e hedp)
  obtain ⟨hwidth, _, hge⟩ := finishItem_width hrows hfin
  intro r hr
  have hne : out.1 ≠ [] := by
    intro h0
    rw [h0] at hr
    exact absurd hr (by simp)
  have h3 : 3 ≤ catWidth (cfg.to_categorical_indexes.zip cfg.to_categorical_sizes) 3 :=
    hge hne
  have := hwidth r hr
  rw [this]
  unfold outWidth
  rw [hnc]
  simp only [Bool.false_eq_true, if_false]
  by_cases hnci : cfg.add_n_c_info = true <;> simp [hnci] <;> omega

/-- Witness for Claim C10: a concrete no-normals call with categorical
expansion and the positional channel both enabled still returns three-column
points. -/
theorem getItem_three_channels_no_normals_witness :
    getItem ⟨2, 2, false, false, 10, false, false, 7/10, 13/10, 3/10, 1/200, true, [], [1], [2]⟩
      ["a.1"] [⟨"a.1", "f.npy", [[1, 1, 5, 9]]⟩] (fun x => x) [] 0 [0, 0] =
      some (([[1, 0, 1], [1, 0, 1]], 0), [(0, ([[1, 1, 5]], 0))]) ∧
    ∀ r ∈ ([[1, 0, 1], [1, 0, 1]] : Mat), r.length = 3 := by
  constructor
  · rfl
  · exact getItem_three_channels_no_normals
      ⟨2, 2, false, false, 10, false, false, 7/10, 13/10, 3/10, 1/200, true, [], [1], [2]⟩
      ["a.1"] [⟨"a.1", "f.npy", [[1, 1, 5, 9]]⟩] (fun x => x) [] 0 [0, 0]
      ([[1, 0, 1], [1, 0, 1]], 0) [(0, ([[1, 1, 5]], 0))] rfl (by decide)
      (CacheOK_nil _ _ _) (by rfl)

/-! ## Claim C7: weights have mean one and preserve frequency ratios -/

theorem counterAdd_pos {c : String} :
    ∀ {acc : List (String × Nat)}, (∀ kv ∈ acc, 1 ≤ kv.2) →
      ∀ kv ∈ counterAdd c acc, 1 ≤ kv.2
  | [], _ => by
    intro kv hkv
    unfold counterAdd at hkv
    simp only [List.mem_singleton] at hkv
    subst hkv
    exact Nat.le_refl 1
  | (k, n) :: rest, hacc => by
    intro kv hkv
    unfold counterAdd at hkv
    by_cases hk : k = c
    · rw [if_pos hk] at hkv
      rcases List.mem_cons.mp hkv with rfl | hkv
      · have := hacc (k, n) (by simp)
        simp only at this ⊢
        omega
      · exact hacc kv (List.mem_cons_of_mem _ hkv)
    · rw [if_neg hk] at hkv
      rcases List.mem_cons.mp hkv with rfl | hkv
      · exact hacc (k, n) (by simp)
      · exact counterAdd_pos (fun kv h => hacc kv (List.mem_cons_of_mem _ h)) kv hkv

theorem counter_pos (l : List String) : ∀ kv ∈ counter l, 1 ≤ kv.2 := by
  unfold counter
  suffices h : ∀ acc, (∀ kv ∈ acc, 1 ≤ kv.2) →
      ∀ kv ∈ l.foldl (fun acc c => counterAdd c acc) acc, 1 ≤ kv.2 by
    exact h [] (by simp)
  induction l with
  | nil => intro acc hacc; simpa using hacc
  | cons c t ih =>
    intro acc hacc
    simp only [List.foldl_cons]
    exact ih (counterAdd c acc) (counterAdd_pos hacc)

theorem counterAdd_ne_nil (c : String) (acc : List (String × Nat)) :
    counterAdd c acc ≠ [] := by
  cases acc with
  | nil => simp [counterAdd]
  | cons kv rest =>
    obtain ⟨k, n⟩ := kv
    unfold counterAdd
    by_cases hk : k = c <;> simp [hk]

theorem counter_ne_nil {l : List String} (h : l ≠ []) : counter l ≠ [] := by
  unfold counter
  cases l with
  | nil => exact absurd rfl h
  | cons c t =>
    simp only [List.foldl_cons]
    suffices hs : ∀ (acc : List (String × Nat)) (u : List String), acc ≠ [] →
        u.foldl (fun acc c => counterAdd c acc) acc ≠ [] by
      exact hs _ t (counterAdd_ne_nil c [])
    intro acc u
    induction u generalizing acc with
    | nil => intro h1; simpa using h1
    | cons d u2 ih =>
      intro _
      simp only [List.foldl_cons]
      exact ih _ (counterAdd_ne_nil d acc)

theorem counterAdd_keys (c : String) : ∀ (acc : List (String × Nat)),
    (counterAdd c acc).map Prod.fst = acc.map Prod.fst ∨
    ((counterAdd c acc).map Prod.fst = acc.map Prod.fst ++ [c] ∧
      c ∉ acc.map Prod.fst)
  | [] => by
    right
    constructor
    · rfl
    · simp
  | (k, n) :: rest => by
    unfold counterAdd
    by_cases hk : k = c
    · rw [if_pos hk]
      left
      simp
    · rw [if_neg hk]
      rcases counterAdd_keys c rest with h | ⟨h, hc⟩
      · left
        simp [h]
      · right
        constructor
        · simp [h]
        · simp only [List.map_cons, List.mem_cons]
          rintro (rfl | hmem)
          · exact hk rfl
          · exact hc hmem

theorem counter_keys_nodup (l : List String) :
    ((counter l).map Prod.fst).Nodup := by
  unfold counter
  suffices hs : ∀ acc : List (String × Nat), (acc.map Prod.fst).Nodup →
      ((l.foldl (fun acc c => counterAdd c acc) acc).map Prod.fst).Nodup by
    exact hs [] (by simp)
  induction l with
  | nil => intro acc hacc; simpa using hacc
  | cons c t ih =>
    intro acc hacc
    simp only [List.foldl_cons]
    apply ih
    rcases counterAdd_keys c acc with h | ⟨h, hc⟩
    · rw [h]; exact hacc
    · rw [h]
      simp only [List.nodup_append, List.nodup_singleton]
      exact ⟨hacc, by simp, by simpa using hc⟩

theorem assoc_values_eq {xs : List (String × Nat)}
    (hnd : (xs.map Prod.fst).Nodup) {k : String} {a b : Nat}
    (ha : (k, a) ∈ xs) (hb : (k, b) ∈ xs) : a = b := by
  induction xs with
  | nil => exact absurd ha (by simp)
  | cons kv rest ih =>
    simp only [List.map_cons, List.nodup_cons] at hnd
    rcases List.mem_cons.mp ha with rfl | ha' <;>
      rcases List.mem_cons.mp hb with hb' | hb'
    · injection hb' with _ h2; exact h2.symm
    · exact absurd (List.mem_map_of_mem Prod.fst hb') (by simpa using hnd.1)
    · rw [← hb'] at hnd
      exact absurd (List.mem_map_of_mem Prod.fst ha') (by simpa using hnd.1)
    · exact ih hnd.2 ha' hb'

theorem sum_map_div (l : List ℚ) (c : ℚ) :
    (l.map (fun x => x / c)).sum = l.sum / c := by
  induction l with
  | nil => simp
  | cons x t ih => simp [ih, add_div]

/-- Claim C7: for every non-empty datapath the computed per-class weight
sequence has mean exactly one (exact in the rational model of the float
computation), and the mean-normalization preserves the ratio of any two class
weights: normalized weights still satisfy `w_c * count_c = w_d * count_d`,
i.e. each weight stays proportional to the inverse class frequency. -/
theorem weights_mean_one_and_ratio (dp : List Entry) (hne : dp ≠ [])
    (hnames : ∀ kv ∈ counter (dp.map (·.cls)), kv.1.data.isEmpty = false) :
    ∃ w, classesWeights dp = some w ∧ w ≠ [] ∧ w.sum = (w.length : ℚ) ∧
      ∀ p ∈ normWeights dp, ∀ q ∈ normWeights dp, ∀ np nq : Nat,
        (p.1, np) ∈ counter (dp.map (·.cls)) →
        (q.1, nq) ∈ counter (dp.map (·.cls)) →
        p.2 * np = q.2 * nq := by
  have hguard : (counter (dp.map (·.cls))).all (fun kv => !kv.1.data.isEmpty) = true := by
    apply List.all_eq_true.mpr
    intro kv hkv
    simp [hnames kv hkv]
  have hcnt_ne : counter (dp.map (·.cls)) ≠ [] :=
    counter_ne_nil (by simpa using hne)
  set cnt := counter (dp.map (·.cls)) with hcnt
  set S : ℚ := ((invFreqs dp).map (·.2)).sum with hS
  set m : Nat := (invFreqs dp).length with hm
  have hm_cnt : m = cnt.length := by rw [hm]; unfold invFreqs; rw [List.length_map, hcnt]
  have hm_pos : 0 < m := by
    rw [hm_cnt]
    exact List.length_pos.mpr hcnt_ne
  have hS_pos : 0 < S := by
    rw [hS]
    apply List.sum_pos
    · intro x hx
      simp only [List.mem_map] at hx
      obtain ⟨kv, hkv, hkvx⟩ := hx
      unfold invFreqs at hkv
      simp only [List.mem_map] at hkv
      obtain ⟨kv0, hkv0, hkv0kv⟩ := hkv
      have hpos := counter_pos _ kv0 hkv0
      rw [← hkvx, ← hkv0kv]
      simp only
      have h0 : (0 : ℚ) < (kv0.2 : ℚ) := by
        have : 0 < kv0.2 := hpos
        exact_mod_cast this
      exact one_div_pos.mpr h0
    · unfold invFreqs
      rw [← hcnt]
      intro h0
      apply hcnt_ne
      have := congrArg List.length h0
      simp only [List.length_map, List.length_nil] at this
      exact List.length_eq_zero.mp this
  have hmean_ne : S / (m : ℚ) ≠ 0 := by
    apply div_ne_zero (ne_of_gt hS_pos)
    have : (0 : ℚ) < (m : ℚ) := by exact_mod_cast hm_pos
    exact ne_of_gt this
  have hSne : S ≠ 0 := ne_of_gt hS_pos
  have hmne : ((m : ℚ)) ≠ 0 := by
    have : (0 : ℚ) < (m : ℚ) := by exact_mod_cast hm_pos
    exact ne_of_gt this
  refine ⟨(isort (pyLe (fun a b => weightsLtB a.1 b.1)) (normWeights dp)).map (·.2),
    ?_, ?_, ?_, ?_⟩
  · unfold classesWeights
    rw [← hcnt, hguard]
    rfl
  · intro h0
    have hlen := congrArg List.length h0
    simp only [List.length_map, isort_length, List.length_nil] at hlen
    simp only [normWeights, List.length_map] at hlen
    rw [← hm] at hlen
    omega
  · have hperm : List.Perm ((isort (pyLe (fun a b => weightsLtB a.1 b.1))
        (normWeights dp)).map (·.2)) ((normWeights dp).map (·.2)) :=
      (isort_perm _ _).map _
    rw [hperm.sum_eq, hperm.length_eq]
    have hvals : (normWeights dp).map (·.2) =
        ((invFreqs dp).map (·.2)).map (fun x => x / (S / (m : ℚ))) := by
      simp only [normWeights]
      rw [← hS, ← hm]
      simp [List.map_map]
    rw [hvals, sum_map_div, ← hS]
    rw [List.length_map, List.length_map, ← hm]
    field_simp
  · intro p hp q hq np nq hnp hnq
    simp only [normWeights] at hp hq
    rw [← hS, ← hm] at hp hq
    simp only [List.mem_map] at hp hq
    obtain ⟨kv1, hkv1, hkv1p⟩ := hp
    obtain ⟨kv2, hkv2, hkv2q⟩ := hq
    unfold invFreqs at hkv1 hkv2
    rw [← hcnt] at hkv1 hkv2
    simp only [List.mem_map] at hkv1 hkv2
    obtain ⟨a1, ha1, ha1kv⟩ := hkv1
    obtain ⟨a2, ha2, ha2kv⟩ := hkv2
    have hp1 : p.1 = a1.1 := by rw [← hkv1p, ← ha1kv]
    have hp2 : p.2 = ((1 : ℚ) / (a1.2 : ℚ)) / (S / (m : ℚ)) := by
      rw [← hkv1p, ← ha1kv]
    have hq1 : q.1 = a2.1 := by rw [← hkv2q, ← ha2kv]
    have hq2 : q.2 = ((1 : ℚ) / (a2.2 : ℚ)) / (S / (m : ℚ)) := by
      rw [← hkv2q, ← ha2kv]
    have hna1 : np = a1.2 := by
      apply assoc_values_eq (by rw [hcnt]; exact counter_keys_nodup _) hnp
      rw [hp1]
      exact ha1
    have hna2 : nq = a2.2 := by
      apply assoc_values_eq (by rw [hcnt]; exact counter_keys_nodup _) hnq
      rw [hq1]
      exact ha2
    have hpos1 : 1 ≤ a1.2 := counter_pos _ a1 (by rw [← hcnt]; exact ha1)
    have hpos2 : 1 ≤ a2.2 := counter_pos _ a2 (by rw [← hcnt]; exact ha2)
    have hne1 : ((a1.2 : ℚ)) ≠ 0 := by
      have : (0 : ℚ) < (a1.2 : ℚ) := by exact_mod_cast hpos1
      exact ne_of_gt this
    have hne2 : ((a2.2 : ℚ)) ≠ 0 := by
      have : (0 : ℚ) < (a2.2 : ℚ) := by exact_mod_cast hpos2
      exact ne_of_gt this
    rw [hp2, hq2, hna1, hna2]
    field_simp
    ring

/-- Witness for Claim C7 at the spec's concrete scenario: classes `a.1` with
three samples and `a.2` with one. -/
theorem weights_mean_one_and_ratio_witness :
    ∃ w, classesWeights
        [⟨"a.1", "f1.npy", [[0, 0, 0]]⟩, ⟨"a.1", "f2.npy", [[0, 0, 0]]⟩,
         ⟨"a.1", "f3.npy", [[0, 0, 0]]⟩, ⟨"a.2", "g.npy", [[0, 0, 0]]⟩] = some w ∧
      w ≠ [] ∧ w.sum = (w.length : ℚ) ∧
      ∀ p ∈ normWeights
        [⟨"a.1", "f1.npy", [[0, 0, 0]]⟩, ⟨"a.1", "f2.npy", [[0, 0, 0]]⟩,
         ⟨"a.1", "f3.npy", [[0, 0, 0]]⟩, ⟨"a.2", "g.npy", [[0, 0, 0]]⟩],
        ∀ q ∈ normWeights
        [⟨"a.1", "f1.npy", [[0, 0, 0]]⟩, ⟨"a.1", "f2.npy", [[0, 0, 0]]⟩,
         ⟨"a.1", "f3.npy", [[0, 0, 0]]⟩, ⟨"a.2", "g.npy", [[0, 0, 0]]⟩],
        ∀ np nq : Nat,
        (p.1, np) ∈ counter (List.map (fun e : Entry => e.cls)
          [⟨"a.1", "f1.npy", [[0, 0, 0]]⟩, ⟨"a.1", "f2.npy", [[0, 0, 0]]⟩,
           ⟨"a.1", "f3.npy", [[0, 0, 0]]⟩, ⟨"a.2", "g.npy", [[0, 0, 0]]⟩]) →
        (q.1, nq) ∈ counter (List.map (fun e : Entry => e.cls)
          [⟨"a.1", "f1.npy", [[0, 0, 0]]⟩, ⟨"a.1", "f2.npy", [[0, 0, 0]]⟩,
           ⟨"a.1", "f3.npy", [[0, 0, 0]]⟩, ⟨"a.2", "g.npy", [[0, 0, 0]]⟩]) →
        p.2 * np = q.2 * nq :=
  weights_mean_one_and_ratio
    [⟨"a.1", "f1.npy", [[0, 0, 0]]⟩, ⟨"a.1", "f2.npy", [[0, 0, 0]]⟩,
     ⟨"a.1", "f3.npy", [[0, 0, 0]]⟩, ⟨"a.2", "g.npy", [[0, 0, 0]]⟩]
    (by decide) (by decide)

theorem cnt?_counterAdd_same (c : String) :
    ∀ acc : List (String × Nat),
      cnt? (counterAdd c acc) c = some ((cnt? acc c).getD 0 + 1)
  | [] => by simp [counterAdd, cnt?, List.find?]
  | (k0, n) :: rest => by
    unfold counterAdd
    by_cases hk : k0 = c
    · rw [if_pos hk]
      subst hk
      simp [cnt?, List.find?]
    · rw [if_neg hk]
      have hne : (k0 == c) = false := by simpa using hk
      simp only [cnt?, List.find?, hne]
      exact cnt?_counterAdd_same c rest

theorem cnt?_counterAdd_other {c k : String} (hk : k ≠ c) :
    ∀ acc : List (String × Nat), cnt? (counterAdd c acc) k = cnt? acc k
  | [] => by
    have hne : (c == k) = false := by simpa using (fun h => hk h.symm)
    simp [counterAdd, cnt?, List.find?, hne]
  | (k0, n) :: rest => by
    unfold counterAdd
    by_cases hk0 : k0 = c
    · rw [if_pos hk0]
      subst hk0
      have hne : (k0 == k) = false := by simpa using (fun h => hk h.symm)
      simp [cnt?, List.find?, hne]
    · rw [if_neg hk0]
      by_cases hk0k : k0 = k
      · subst hk0k
        simp [cnt?, List.find?]
      · have hne : (k0 == k) = false := by simpa using hk0k
        simp only [cnt?, List.find?, hne]
        exact cnt?_counterAdd_other hk rest

theorem cnt?_counterFrom (k : String) :
    ∀ (l : List String) (acc : List (String × Nat)),
      cnt? (l.foldl (fun a c => counterAdd c a) acc) k =
        match cnt? acc k with
        | some n => some (n + l.count k)
        | none => if k ∈ l then some (l.count k) else none
  | [], acc => by
    cases h : cnt? acc k <;> simp [h]
  | c :: t, acc => by
    simp only [List.foldl_cons]
    rw [cnt?_counterFrom k t (counterAdd c acc)]
    by_cases hk : k = c
    · subst hk
      rw [cnt?_counterAdd_same]
      cases h : cnt? acc k with
      | some n =>
        simp only [h, Option.getD_some]
        rw [List.count_cons_self]
        congr 1
        omega
      | none =>
        simp only [h, Option.getD_none]
        rw [List.count_cons_self]
        have : k ∈ k :: t := by simp
        simp only [this, if_true]
        congr 1
        omega
    · rw [cnt?_counterAdd_other hk]
      have hcnt : (c :: t).count k = t.count k := List.count_cons_of_ne hk t
      cases h : cnt? acc k with
      | some n => simp [h, hcnt]
      | none =>
        simp only [h]
        rw [hcnt]
        simp [List.mem_cons, hk]

theorem cnt?_nil (k : String) : cnt? [] k = none := rfl

theorem cnt?_of_mem_nodup :
    ∀ {xs : List (String × Nat)} {k : String} {n : Nat},
      (xs.map Prod.fst).Nodup → (k, n) ∈ xs → cnt? xs k = some n
  | [], _, _, _, h => absurd h (by simp)
  | kv :: rest, k, n, hnodup, h => by
    simp only [List.map_cons, List.nodup_cons] at hnodup
    rcases List.mem_cons.mp h with rfl | h'
    · simp [cnt?, List.find?]
    · have hkv : (kv.1 == k) = false := by
        have : kv.1 ≠ k := by
          intro he
          apply hnodup.1
          rw [he]
          exact List.mem_map_of_mem Prod.fst h'
        simpa using this
      simp only [cnt?, List.find?, hkv]
      exact cnt?_of_mem_nodup hnodup.2 h'

theorem counter_count {l : List String} {k : String} {n : Nat}
    (h : (k, n) ∈ counter l) : n = l.count k := by
  have hmem : cnt? (counter l) k = some n :=
    cnt?_of_mem_nodup (counter_keys_nodup l) h
  have := cnt?_counterFrom k l []
  unfold counter at hmem
  rw [hmem, cnt?_nil] at this
  by_cases hk : k ∈ l
  · simp only [hk, if_true] at this
    injection this
  · simp only [hk, if_false] at this
    exact absurd this (by simp)

theorem counterAdd_keys_mem (c : String) :
    ∀ acc : List (String × Nat),
      (c ∈ acc.map Prod.fst →
        (counterAdd c acc).map Prod.fst = acc.map Prod.fst) ∧
      (c ∉ acc.map Prod.fst →
        (counterAdd c acc).map Prod.fst = acc.map Prod.fst ++ [c])
  | [] => by
    constructor
    · intro h; exact absurd h (by simp)
    · intro _; rfl
  | (k, n) :: rest => by
    unfold counterAdd
    by_cases hk : k = c
    · rw [if_pos hk]
      subst hk
      constructor
      · intro _; rfl
      · intro h; exact absurd (by simp) h
    · rw [if_neg hk]
      have ih := counterAdd_keys_mem c rest
      constructor
      · intro h
        have h' : c ∈ rest.map Prod.fst := by
          rcases List.mem_cons.mp h with he | hm
          · exact absurd he.symm hk
          · exact hm
        simp only [List.map_cons]
        rw [ih.1 h']
      · intro h
        have h' : c ∉ rest.map Prod.fst := fun hm => h (by simp [hm])
        simp only [List.map_cons]
        rw [ih.2 h']
        rfl

theorem counter_keys_eq :
    ∀ (l : List String) (acc : List (String × Nat)),
      (l.foldl (fun a c => counterAdd c a) acc).map Prod.fst =
        acc.map Prod.fst ++
          (dedupF l).filter (fun x => decide (x ∉ acc.map Prod.fst))
  | [], acc => by simp [dedupF]
  | c :: t, acc => by
    simp only [List.foldl_cons]
    rw [counter_keys_eq t (counterAdd c acc)]
    by_cases hc : c ∈ acc.map Prod.fst
    · rw [(counterAdd_keys_mem c acc).1 hc]
      have hhead : (decide (c ∉ acc.map Prod.fst) : Bool) = false := by
        simp [hc]
      simp only [dedupF, List.filter_cons, hhead, Bool.false_eq_true, if_false,
        List.filter_filter]
      congr 1
      apply List.filter_congr
      intro x _
      by_cases hx : x ∈ acc.map Prod.fst
      · simp [hx]
      · have hxc : x ≠ c := fun h => hx (h ▸ hc)
        simp [hx, hxc]
    · rw [(counterAdd_keys_mem c acc).2 hc]
      have hhead : (decide (c ∉ acc.map Prod.fst) : Bool) = true := by
        simp [hc]
      simp only [dedupF, List.filter_cons, hhead, if_true, List.filter_filter,
        List.append_assoc, List.singleton_append]
      congr 1
      congr 1
      apply List.filter_congr
      intro x _
      by_cases hxc : x = c
      · subst hxc
        simp
      · by_cases hx : x ∈ acc.map Prod.fst
        · simp [hx, hxc]
        · have : x ∉ acc.map Prod.fst ++ [c] := by
            simp [hx, hxc]
          simp [this, hx, hxc]

theorem counter_keys (l : List String) :
    (counter l).map Prod.fst = dedupF l := by
  unfold counter
  rw [counter_keys_eq l []]
  simp

theorem dedupF_sublist : ∀ l : List String, (dedupF l).Sublist l
  | [] => List.Sublist.refl []
  | c :: t => by
    unfold dedupF
    exact List.Sublist.cons₂ c ((List.filter_sublist _).trans (dedupF_sublist t))

theorem mem_dedupF {x : String} : ∀ {l : List String}, x ∈ dedupF l ↔ x ∈ l
  | [] => Iff.rfl
  | c :: t => by
    constructor
    · intro h
      exact (dedupF_sublist (c :: t)).subset h
    · intro h
      unfold dedupF
      rcases List.mem_cons.mp h with rfl | hm
      · exact List.mem_cons_self _ _
      · by_cases hxc : x = c
        · subst hxc
          exact List.mem_cons_self _ _
        · refine List.mem_cons_of_mem _ (List.mem_filter.mpr ⟨mem_dedupF.mpr hm, ?_⟩)
          simpa using hxc

theorem dedupF_nodup : ∀ l : List String, (dedupF l).Nodup
  | [] => List.nodup_nil
  | c :: t => by
    unfold dedupF
    refine List.nodup_cons.mpr ⟨?_, (dedupF_nodup t).filter _⟩
    intro hmem
    have := List.of_mem_filter hmem
    simp at this

/-! ## Claim C2: alignment of the weights with catalog ids -/

theorem catalogKey_isSome {c : String} (h : validName c = true) :
    (catalogKey c).isSome = true := by
  obtain ⟨ch, ds, _, hcat, _, _⟩ := validName_keys h
  rw [hcat]
  rfl

theorem validName_not_empty {c : String} (h : validName c = true) :
    c.data.isEmpty = false := by
  obtain ⟨ch, ds, hdata, _, _, _⟩ := validName_keys h
  rw [hdata]
  rfl

/-- On valid names the weights key is the catalog key's first component paired
with the empty token list, so catalog `pyLe` entails weights `pyLe`. -/
theorem weights_le_of_catalog_le {c1 c2 : String}
    (h1 : validName c1 = true) (h2 : validName c2 = true)
    (h : pyLe catalogLtB c1 c2 = true) : pyLe weightsLtB c1 c2 = true := by
  obtain ⟨a1, d1, _, hcat1, _, hw1⟩ := validName_keys h1
  obtain ⟨a2, d2, _, hcat2, _, hw2⟩ := validName_keys h2
  have hck1 : catalogKeyD c1 = (List.asString [a1], (digitsToNat d1 : Int)) := by
    unfold catalogKeyD
    rw [hcat1]
    rfl
  have hck2 : catalogKeyD c2 = (List.asString [a2], (digitsToNat d2 : Int)) := by
    unfold catalogKeyD
    rw [hcat2]
    rfl
  have hwk1 : weightsKeyD c1 = (List.asString [a1], ([] : List String)) := by
    unfold weightsKeyD
    rw [hw1]
    rfl
  have hwk2 : weightsKeyD c2 = (List.asString [a2], ([] : List String)) := by
    unfold weightsKeyD
    rw [hw2]
    rfl
  simp only [pyLe, Bool.not_eq_true', catalogLtB, weightsLtB, hck1, hck2,
    hwk1, hwk2] at h ⊢
  simp only [k1LtB, pairLtB] at h
  cases hs : strLtB (List.asString [a2]) (List.asString [a1]) with
  | true => rw [hs] at h; simp at h
  | false => simp [k2LtB, pairLtB, listLtB, hs]

/-- Pairwise non-strict catalog order plus distinctness plus key-injectivity
upgrades to pairwise strict catalog order. -/
theorem pairwise_catalog_strict {S : List String} {l : List String}
    (hinj : ∀ c1 ∈ S, ∀ c2 ∈ S, catalogKeyD c1 = catalogKeyD c2 → c1 = c2)
    (hmem : ∀ c ∈ l, c ∈ S) (hnd : l.Nodup)
    (hle : l.Pairwise (fun a b => pyLe catalogLtB a b = true)) :
    l.Pairwise (fun a b => catalogLtB a b = true) := by
  have hcomb : l.Pairwise (fun a b => pyLe catalogLtB a b = true ∧ a ≠ b) :=
    hle.and hnd
  refine List.Pairwise.imp_of_mem ?_ hcomb
  intro a b ha hb hab
  obtain ⟨hple, hne⟩ := hab
  by_contra hlt
  have hba : catalogLtB b a ≠ true := by
    simp only [pyLe, Bool.not_eq_true'] at hple
    simp [hple]
  have hlt' : k1LtB (catalogKeyD a) (catalogKeyD b) ≠ true := hlt
  have hba' : k1LtB (catalogKeyD b) (catalogKeyD a) ≠ true := hba
  exact hne (hinj a (hmem a ha) b (hmem b hb)
    (k1LtB_strictOrd.eq_of_not_lt hlt' hba'))

/-- Claim C2 (amended): with pairwise-distinct single-character-prefix class
names (`validName`), injective catalog keys, and every datapath class drawn
from (and covering) the directory listing, the weight list is exactly the
catalog mapped through "normalized inverse frequency of that class": the
weight at position `i` belongs to the class with catalog id `i`. -/
theorem weights_aligned_with_catalog (split : String) (listdir : List String)
    (entries : List Entry)
    (hvn : ∀ c ∈ listdir, validName c = true)
    (hnd : listdir.Nodup)
    (hinj : ∀ c1 ∈ listdir, ∀ c2 ∈ listdir, catalogKeyD c1 = catalogKeyD c2 → c1 = c2)
    (hcover : ∀ e ∈ entries, e.cls ∈ listdir)
    (hinhab : ∀ c ∈ listdir, ∃ e ∈ entries, e.cls = c) :
    ∃ cat dp, classesNames listdir = some cat ∧ mkDatapath split entries = some dp ∧
      classesWeights dp = some (cat.map (fun c =>
        ((1 : ℚ) / ((dp.map (fun e : Entry => e.cls)).count c : ℚ)) /
          (((invFreqs dp).map (fun kv => kv.2)).sum / ((invFreqs dp).length : ℚ)))) := by
  -- the catalog
  have hallcat : listdir.all (fun c => (catalogKey c).isSome) = true :=
    List.all_eq_true.mpr (fun c hc => catalogKey_isSome (hvn c hc))
  have hcat : classesNames listdir = some (isort (pyLe catalogLtB) listdir) := by
    unfold classesNames
    rw [hallcat]
    rfl
  -- the datapath
  obtain ⟨dp, hdp, hperm, hpair⟩ :=
    mkDatapath_sorted split entries (fun e he => hvn e.cls (hcover e he))
  refine ⟨isort (pyLe catalogLtB) listdir, dp, hcat, hdp, ?_⟩
  have hpaircls : (dp.map (fun e : Entry => e.cls)).Pairwise
      (fun a b => pyLe catalogLtB a b = true) :=
    List.pairwise_map.mpr hpair
  have hclsmem : ∀ c, c ∈ dp.map (fun e : Entry => e.cls) ↔ c ∈ listdir := by
    intro c
    constructor
    · intro hc
      obtain ⟨e, he, rfl⟩ := List.mem_map.mp hc
      exact hcover e (hperm.mem_iff.mp he)
    · intro hc
      obtain ⟨e, he, rfl⟩ := hinhab c hc
      exact List.mem_map.mpr ⟨e, hperm.mem_iff.mpr he, rfl⟩
  -- the deduplicated class sequence of the datapath equals the catalog
  have hddnodup : (dedupF (dp.map (fun e : Entry => e.cls))).Nodup :=
    dedupF_nodup _
  have hddmem : ∀ c, c ∈ dedupF (dp.map (fun e : Entry => e.cls)) ↔ c ∈ listdir :=
    fun c => mem_dedupF.trans (hclsmem c)
  have hddle : (dedupF (dp.map (fun e : Entry => e.cls))).Pairwise
      (fun a b => pyLe catalogLtB a b = true) :=
    List.Pairwise.sublist (dedupF_sublist _) hpaircls
  have hcatle : (isort (pyLe catalogLtB) listdir).Pairwise
      (fun a b => pyLe catalogLtB a b = true) :=
    isort_pairwise_key k1LtB_strictOrd catalogKeyD catalogLtB (fun a b => rfl) listdir
  have hcatnodup : (isort (pyLe catalogLtB) listdir).Nodup :=
    ((isort_perm _ _).nodup_iff).mpr hnd
  have hcatmem : ∀ c, c ∈ isort (pyLe catalogLtB) listdir ↔ c ∈ listdir :=
    fun c => (isort_perm _ _).mem_iff
  have hddstrict := pairwise_catalog_strict hinj
    (fun c hc => (hddmem c).mp hc) hddnodup hddle
  have hcatstrict := pairwise_catalog_strict hinj
    (fun c hc => (hcatmem c).mp hc) hcatnodup hcatle
  have hpermdc : List.Perm (dedupF (dp.map (fun e : Entry => e.cls)))
      (isort (pyLe catalogLtB) listdir) :=
    (List.perm_ext_iff_of_nodup hddnodup hcatnodup).mpr
      (fun c => (hddmem c).trans (hcatmem c).symm)
  haveI hanti : IsAntisymm String (fun a b => catalogLtB a b = true) :=
    ⟨fun a b h1 h2 => absurd (k1LtB_strictOrd.asymm h1 h2) not_false⟩
  have hddcat : dedupF (dp.map (fun e : Entry => e.cls)) =
      isort (pyLe catalogLtB) listdir :=
    List.eq_of_perm_of_sorted hpermdc hddstrict hcatstrict
  -- the weights guard passes
  have hguard : (counter (dp.map (fun e : Entry => e.cls))).all
      (fun kv => !kv.1.data.isEmpty) = true := by
    refine List.all_eq_true.mpr ?_
    intro kv hkv
    have hmemk : kv.1 ∈ (counter (dp.map (fun e : Entry => e.cls))).map Prod.fst :=
      List.mem_map_of_mem Prod.fst hkv
    rw [counter_keys] at hmemk
    have hv := hvn kv.1 ((hddmem kv.1).mp hmemk)
    rw [validName_not_empty hv]
    rfl
  -- the final sort is the identity: the weights dict is already in weights order
  have hkeys : (counter (dp.map (fun e : Entry => e.cls))).map Prod.fst =
      dedupF (dp.map (fun e : Entry => e.cls)) := counter_keys _
  have hwkeysle : ((counter (dp.map (fun e : Entry => e.cls))).map Prod.fst).Pairwise
      (fun a b => pyLe weightsLtB a b = true) := by
    rw [hkeys]
    refine List.Pairwise.imp_of_mem ?_ hddle
    intro a b ha hb hr
    exact weights_le_of_catalog_le (hvn a ((hddmem a).mp ha))
      (hvn b ((hddmem b).mp hb)) hr
  have hcntle : (counter (dp.map (fun e : Entry => e.cls))).Pairwise
      (fun a b => pyLe weightsLtB a.1 b.1 = true) :=
    List.pairwise_map.mp hwkeysle
  have hwpair : (normWeights dp).Pairwise
      (fun a b => pyLe (fun a b => weightsLtB a.1 b.1) a b = true) := by
    simp only [normWeights, invFreqs, List.map_map]
    exact List.pairwise_map.mpr hcntle
  have hcw : classesWeights dp = some ((normWeights dp).map (fun kv => kv.2)) := by
    unfold classesWeights
    rw [hguard, isort_of_pairwise hwpair]
    rfl
  rw [hcw]
  congr 1
  rw [← hddcat, ← hkeys]
  simp only [normWeights, invFreqs, List.map_map]
  refine List.map_congr_left ?_
  intro kv hkv
  have hkv' : (kv.1, kv.2) ∈ counter (dp.map (fun e : Entry => e.cls)) := by
    rw [Prod.mk.eta]
    exact hkv
  have hc := counter_count hkv'
  simp only [Function.comp]
  rw [hc]

/-- Claim C2, counterexample: with directory names `"a.1"` and `"a.01"` (equal
catalog keys `("a", 1)`, so the catalog keeps listing order: id 0 = `"a.1"`
with one sample, id 1 = `"a.01"` with two), the computed weight list is
`[2/3, 4/3]` — the weights of `"a.01"` and `"a.1"` in datapath first-occurrence
order — while index-alignment with catalog ids would require `[4/3, 2/3]`:
the weight at position 0 is not the normalized inverse frequency of the class
whose catalog id is 0. -/
theorem weights_misaligned_with_catalog :
    classesNames ["a.1", "a.01"] = some ["a.1", "a.01"] ∧
    mkDatapath "train"
      [⟨"a.01", "f1.npy", [[0, 0, 0]]⟩, ⟨"a.01", "f2.npy", [[0, 0, 0]]⟩,
       ⟨"a.1", "g.npy", [[0, 0, 0]]⟩] =
      some [⟨"a.01", "f1.npy", [[0, 0, 0]]⟩, ⟨"a.01", "f2.npy", [[0, 0, 0]]⟩,
       ⟨"a.1", "g.npy", [[0, 0, 0]]⟩] ∧
    classesWeights
      [⟨"a.01", "f1.npy", [[0, 0, 0]]⟩, ⟨"a.01", "f2.npy", [[0, 0, 0]]⟩,
       ⟨"a.1", "g.npy", [[0, 0, 0]]⟩] = some [2/3, 4/3] ∧
    (["a.1", "a.01"].map (fun c =>
      ((1 : ℚ) / ((([⟨"a.01", "f1.npy", [[0, 0, 0]]⟩, ⟨"a.01", "f2.npy", [[0, 0, 0]]⟩,
          ⟨"a.1", "g.npy", [[0, 0, 0]]⟩] : List Entry).map (fun e : Entry => e.cls)).count c : ℚ)) /
        (((invFreqs [⟨"a.01", "f1.npy", [[0, 0, 0]]⟩, ⟨"a.01", "f2.npy", [[0, 0, 0]]⟩,
          ⟨"a.1", "g.npy", [[0, 0, 0]]⟩]).map (fun kv => kv.2)).sum /
         ((invFreqs [⟨"a.01", "f1.npy", [[0, 0, 0]]⟩, ⟨"a.01", "f2.npy", [[0, 0, 0]]⟩,
          ⟨"a.1", "g.npy", [[0, 0, 0]]⟩]).length : ℚ)))) = [4/3, 2/3] ∧
    ([2/3, 4/3] : List ℚ) ≠ [4/3, 2/3] := by
  refine ⟨by decide, by decide, ?_, ?_, by norm_num⟩
  · norm_num +decide [classesWeights, normWeights, invFreqs, counter, counterAdd,
      isort, insertS, pyLe, weightsLtB, weightsKeyD, weightsKey, pyTake,
      pySplitDot, splitOnChar, k2LtB, pairLtB, listLtB, strLtB, nlLtB, strK]
  · norm_num +decide [invFreqs, counter, counterAdd, List.count_cons, List.count_nil]

/-- Witness for the amended Claim C2 at a concrete root. -/
theorem weights_aligned_with_catalog_witness :
    ∃ cat dp, classesNames ["b.2", "a.10", "a.9"] = some cat ∧
      mkDatapath "train"
        [⟨"a.9", "p.npy", [[1, 2, 3]]⟩, ⟨"b.2", "q.npy", [[4, 5, 6]]⟩,
         ⟨"a.10", "r.npy", [[7, 8, 9]]⟩] = some dp ∧
      classesWeights dp = some (cat.map (fun c =>
        ((1 : ℚ) / ((dp.map (fun e : Entry => e.cls)).count c : ℚ)) /
          (((invFreqs dp).map (fun kv => kv.2)).sum / ((invFreqs dp).length : ℚ)))) :=
  weights_aligned_with_catalog "train" ["b.2", "a.10", "a.9"]
    [⟨"a.9", "p.npy", [[1, 2, 3]]⟩, ⟨"b.2", "q.npy", [[4, 5, 6]]⟩,
     ⟨"a.10", "r.npy", [[7, 8, 9]]⟩]
    (by decide) (by decide) (by decide) (by decide) (by decide)

/-! ## Claim C4: shape of every `next_batch` data array -/

/-- Every sample accepted by the stacking loop has exactly `npoints` rows of
the common width `C`, and the loop returns one sample, label and weight per
requested index. -/
theorem batchLoop_shape {cfg : Cfg} {cat : List String} {dp : List Entry}
    {weights : List ℚ} {sqrtFn : ℚ → ℚ} {idxs : List Nat} {start C : Nat}
    {draws : Nat → List Nat} :
    ∀ (i rem : Nat) (cache : Cache) out cache',
      batchLoop cfg cat dp weights sqrtFn idxs start C draws i rem cache =
        some (out, cache') →
      out.1.length = rem ∧ out.2.1.length = rem ∧ out.2.2.length = rem ∧
      ∀ s ∈ out.1, s.length = cfg.npoints ∧ ∀ row ∈ s, row.length = C := by
  intro i rem
  induction rem generalizing i with
  | zero =>
    intro cache out cache' h
    unfold batchLoop at h
    injection h with h1
    injection h1 with h2 _
    rw [← h2]
    exact ⟨rfl, rfl, rfl, by simp⟩
  | succ rem ih =>
    intro cache out cache' h
    unfold batchLoop at h
    cases hidx : idxs[start + i]? with
    | none => rw [hidx] at h; simp at h
    | some idx =>
      rw [hidx] at h
      simp only [Option.bind_eq_bind, Option.some_bind] at h
      cases hg : getItem cfg cat dp sqrtFn cache idx (draws i) with
      | none => rw [hg] at h; simp at h
      | some r =>
        rw [hg] at h
        simp only [Option.some_bind] at h
        by_cases hsh : r.1.1.length = cfg.npoints ∧ ∀ row ∈ r.1.1, row.length = C
        · rw [if_pos hsh] at h
          cases hw : weights[r.1.2]? with
          | none => rw [hw] at h; simp at h
          | some w =>
            rw [hw] at h
            simp only [Option.some_bind] at h
            cases hrest : batchLoop cfg cat dp weights sqrtFn idxs start C draws
                (i + 1) rem r.2 with
            | none => rw [hrest] at h; simp at h
            | some rest =>
              rw [hrest] at h
              simp only [Option.some_bind, Option.some.injEq] at h
              injection h with h1 _
              obtain ⟨hl1, hl2, hl3, hsh'⟩ :=
                ih (i + 1) r.2 rest.1 rest.2 (by rw [hrest])
              rw [← h1]
              refine ⟨by simp [hl1], by simp [hl2], by simp [hl3], ?_⟩
              intro s hs
              rcases List.mem_cons.mp hs with rfl | hs
              · exact hsh
              · exact hsh' s hs
        · rw [if_neg hsh] at h
          simp at h

theorem apply3_length (mat : List (List ℚ)) (v : List ℚ) :
    (apply3 mat v).length = 3 := by
  simp [apply3]

theorem rotateRow_length {wn : Bool} {mat : List (List ℚ)} {r : List ℚ} {C : Nat}
    (hr : r.length = C) (h3 : 3 ≤ C) (hn : wn = true → 6 ≤ C) :
    (rotateRow wn mat r).length = C := by
  unfold rotateRow
  cases wn with
  | false =>
    simp only [Bool.false_eq_true, if_false, List.length_append, apply3_length,
      List.length_drop, hr]
    omega
  | true =>
    have h6 := hn rfl
    simp only [if_true, List.length_append, apply3_length, List.length_drop, hr]
    omega

theorem augPositions_shape {cfg : Cfg} {ad : AugDraws} {b : Nat} {sample : Mat}
    {C : Nat} (h3 : 3 ≤ C) (hs : ∀ row ∈ sample, row.length = C) :
    (augPositions cfg ad b sample).length = sample.length ∧
    ∀ row ∈ augPositions cfg ad b sample, row.length = C := by
  constructor
  · simp [augPositions]
  · intro row hrow
    simp only [augPositions, List.mem_map] at hrow
    obtain ⟨p, hp, hrow⟩ := hrow
    have hpm : p.2 ∈ sample := List.snd_mem_of_mem_enum hp
    have hlen := hs p.2 hpm
    rw [← hrow]
    simp only [List.length_append, List.length_map, List.enum_length,
      List.length_take, List.length_drop, hlen]
    omega

theorem permRows_length {perm : List Nat} {m : Mat}
    (hlt : ∀ i ∈ perm, i < m.length) :
    (permRows perm m).length = perm.length := by
  induction perm with
  | nil => rfl
  | cons i t ih =>
    have hi : i < m.length := hlt i (by simp)
    have hsome : m[i]? = some m[i] := List.getElem?_eq_getElem hi
    unfold permRows
    rw [List.filterMap_cons, hsome]
    simp only [List.length_cons]
    rw [show t.filterMap (fun j => m[j]?) = permRows t m from rfl,
      ih (fun j hj => hlt j (List.mem_cons_of_mem _ hj))]

theorem permRows_mem {perm : List Nat} {m : Mat} {row : List ℚ}
    (h : row ∈ permRows perm m) : row ∈ m := by
  unfold permRows at h
  obtain ⟨i, _, hi⟩ := List.mem_filterMap.mp h
  obtain ⟨hlt2, hval⟩ := List.getElem?_eq_some.mp hi
  rw [← hval]
  exact List.getElem_mem hlt2

/-- The `_augment_batch_data` model preserves the batch shape: same number of samples,
every sample keeps `npoints` rows (via the shared shuffle permutation when
point shuffling is on), and every row keeps the common width `C`. -/
theorem augmentBatch_shape {cfg : Cfg} {ad : AugDraws} {batch : List Mat} {C : Nat}
    (hn : cfg.normal_channel = true → 6 ≤ C)
    (h3 : 3 ≤ C)
    (hperm : cfg.shuffle_points = true →
      ad.perm.length = cfg.npoints ∧ ∀ i ∈ ad.perm, i < cfg.npoints)
    (hb : ∀ s ∈ batch, s.length = cfg.npoints ∧ ∀ row ∈ s, row.length = C) :
    (augmentBatch cfg ad batch).length = batch.length ∧
    ∀ s ∈ augmentBatch cfg ad batch,
      s.length = cfg.npoints ∧ ∀ row ∈ s, row.length = C := by
  unfold augmentBatch
  have hmerged : ∀ s ∈ (batch.enum.map (fun p =>
      (p.2.map (rotateRow cfg.normal_channel (vertRotMat (ad.rotc p.1) (ad.rots p.1)))).map
        (rotateRow cfg.normal_channel (ad.pert p.1)))).enum.map
      (fun p => augPositions cfg ad p.1 p.2),
      s.length = cfg.npoints ∧ ∀ row ∈ s, row.length = C := by
    intro s hs
    simp only [List.mem_map] at hs
    obtain ⟨p, hp, hsval⟩ := hs
    have hpm := List.snd_mem_of_mem_enum hp
    simp only [List.mem_map] at hpm
    obtain ⟨q, hq, hqval⟩ := hpm
    have hqm := List.snd_mem_of_mem_enum hq
    obtain ⟨hqlen, hqrows⟩ := hb q.2 hqm
    have hrot : p.2.length = cfg.npoints ∧ ∀ row ∈ p.2, row.length = C := by
      rw [← hqval]
      constructor
      · simp [hqlen]
      · intro row hrow
        simp only [List.mem_map] at hrow
        obtain ⟨r1, hr1, hr1v⟩ := hrow
        obtain ⟨r0, hr0, hr0v⟩ := hr1
        rw [← hr1v]
        refine rotateRow_length ?_ h3 hn
        rw [← hr0v]
        exact rotateRow_length (hqrows r0 hr0) h3 hn
    obtain ⟨haplen, haprows⟩ := augPositions_shape h3 hrot.2
    rw [← hsval]
    exact ⟨haplen.trans hrot.1, haprows⟩
  by_cases hsp : cfg.shuffle_points = true
  · rw [if_pos hsp]
    obtain ⟨hpl, hpb⟩ := hperm hsp
    constructor
    · simp
    · intro s hs
      obtain ⟨s0, hs0, hsval⟩ := List.mem_map.mp hs
      obtain ⟨hs0len, hs0rows⟩ := hmerged s0 hs0
      rw [← hsval]
      constructor
      · rw [permRows_length (by rw [hs0len]; exact hpb), hpl]
      · intro row hrow
        exact hs0rows row (permRows_mem hrow)
  · rw [if_neg hsp]
    constructor
    · simp
    · exact hmerged

/-- Claim C4: every data array a successful `next_batch` returns stacks
`bsize = min((batch_idx+1)*batch_size, n) - batch_idx*batch_size` samples —
never more than `batch_size`, and exactly `batch_size` whenever the window
fits, so only the trailing batch is smaller — and every sample has exactly
`npoints` rows (the resampler output length) of the probed channel width
`num_channel()`, whatever the raw per-file point counts were.  When
augmentation is on, the batch keeps that shape provided the channel count
supports the rotation (`≥ 3`, and `≥ 6` with normals) and the point-shuffle
permutation is one of `range(npoints)`. -/
theorem next_batch_shapes (cfg : Cfg) (cat : List String) (dp : List Entry)
    (weights : List ℚ) (sqrtFn : ℚ → ℚ) (st : IterSt) (cache : Cache)
    (probeDraw : List Nat) (draws : Nat → List Nat) (augment : Bool)
    (ad : AugDraws) (pr : Mat × Nat) (cache0 : Cache)
    (out : List Mat × List Nat × List ℚ) (cache' : Cache) (st' : IterSt)
    (hpr : getItem cfg cat dp sqrtFn cache 0 probeDraw = some (pr, cache0))
    (h3 : 3 ≤ matWidth pr.1)
    (hwn : cfg.normal_channel = true → 6 ≤ matWidth pr.1)
    (hperm : cfg.shuffle_points = true →
      ad.perm.length = cfg.npoints ∧ ∀ i ∈ ad.perm, i < cfg.npoints)
    (h : nextBatch cfg cat dp weights sqrtFn st cache probeDraw draws augment ad =
      some (out, cache', st')) :
    out.1.length = min ((st.batch_idx + 1) * cfg.batch_size) dp.length -
      st.batch_idx * cfg.batch_size ∧
    out.1.length ≤ cfg.batch_size ∧
    ((st.batch_idx + 1) * cfg.batch_size ≤ dp.length →
      out.1.length = cfg.batch_size) ∧
    ∀ sample ∈ out.1, sample.length = cfg.npoints ∧
      ∀ row ∈ sample, row.length = matWidth pr.1 := by
  obtain ⟨pr', cache0', res, hpr', hle, hloop, hst, hout⟩ := nextBatch_decomp h
  rw [hpr] at hpr'
  injection hpr' with hpr''
  injection hpr'' with hpreq hceq
  subst hpreq
  subst hceq
  obtain ⟨hlen, _, _, hshape⟩ :=
    batchLoop_shape 0 (min ((st.batch_idx + 1) * cfg.batch_size) dp.length -
      st.batch_idx * cfg.batch_size) cache0 res cache' hloop
  have hmul : (st.batch_idx + 1) * cfg.batch_size =
      st.batch_idx * cfg.batch_size + cfg.batch_size := by ring
  have hfinal : out.1.length = res.1.length ∧
      ∀ sample ∈ out.1, sample.length = cfg.npoints ∧
        ∀ row ∈ sample, row.length = matWidth pr.1 := by
    rw [hout]
    by_cases haug : augment = true
    · rw [if_pos haug]
      obtain ⟨hal, has⟩ := augmentBatch_shape hwn h3 hperm hshape
      exact ⟨hal, has⟩
    · rw [if_neg haug]
      exact ⟨rfl, hshape⟩
  refine ⟨?_, ?_, ?_, hfinal.2⟩
  · rw [hfinal.1, hlen]
  · rw [hfinal.1, hlen]
    omega
  · intro hfit
    rw [hfinal.1, hlen]
    omega

/-- Witness for Claim C4: a trailing batch with `batch_size = 2` over a single
sample stacks one sample of exactly `npoints = 1` rows, of the probed width. -/
theorem next_batch_shapes_witness :
    ([[[1, 2, 3]]] : List Mat).length = min ((0 + 1) * 2) 1 - 0 * 2 ∧
    ([[[1, 2, 3]]] : List Mat).length ≤ 2 ∧
    ((0 + 1) * 2 ≤ 1 → ([[[1, 2, 3]]] : List Mat).length = 2) ∧
    ∀ sample ∈ ([[[1, 2, 3]]] : List Mat), sample.length = 1 ∧
      ∀ row ∈ sample, row.length = matWidth ([[1, 2, 3]] : Mat) :=
  next_batch_shapes
    ⟨2, 1, false, false, 10, false, false, 7/10, 13/10, 3/10, 1/200, false, [], [], []⟩
    ["a.1"] [⟨"a.1", "f.npy", [[1, 2, 3]]⟩] [1] (fun x => x) ⟨[0], 1, 0⟩ []
    [0] (fun _ => [0]) false
    ⟨fun _ => 0, fun _ => 0, fun _ => [], fun _ => 0, fun _ _ => 0, fun _ _ _ => 0, []⟩
    ([[1, 2, 3]], 0) [(0, ([[1, 2, 3]], 0))]
    ([[[1, 2, 3]]], [0], [1]) [(0, ([[1, 2, 3]], 0))] ⟨[0], 1, 1⟩
    rfl (by decide) (by decide) (by decide) rfl

/-! ## Claim C8: `next_batch` after exhaustion -/

theorem augmentBatch_nil (cfg : Cfg) (ad : AugDraws) :
    augmentBatch cfg ad [] = [] := by
  unfold augmentBatch
  cases hsp : cfg.shuffle_points <;> simp

/-- Claim C8, counterexample: with one sample and `batch_size = 1` the iterator
is exhausted at `batch_idx = num_batches = 1` (`has_next_batch()` is false),
yet `next_batch` does not raise: there is no cursor check, so it runs the
`num_channel()` probe, computes `bsize = min(2, 1) - 1 = 0`, allocates an empty
batch, returns it and advances the cursor to 2 — no `IterationError` (the code
contains no such check or exception at all). -/
theorem next_batch_no_exhaustion_guard :
    hasNextBatch ⟨[0], 1, 1⟩ = false ∧
    nextBatch ⟨1, 1, false, false, 10, false, false, 7/10, 13/10, 3/10, 1/200, false, [], [], []⟩
      ["a.1"] [⟨"a.1", "f.npy", [[1, 2, 3]]⟩] [1] (fun x => x) ⟨[0], 1, 1⟩ []
      [0] (fun _ => [0]) false
      ⟨fun _ => 0, fun _ => 0, fun _ => [], fun _ => 0, fun _ _ => 0, fun _ _ _ => 0, []⟩ =
      some ((([], [], []), [(0, ([[1, 2, 3]], 0))], ⟨[0], 1, 2⟩)) :=
  ⟨rfl, rfl⟩

/-- Claim C8 (amended): calling `next_batch` on an exhausted iterator
(`batch_idx = num_batches`, no intervening `reset()`) never raises an
`IterationError` — the method has no cursor check.  When `batch_size` divides
the sample count, the call *succeeds*: the probe runs (with its cache side
effect), the batch is empty, and the cursor advances past `num_batches`.
Otherwise `start_idx` exceeds the sample count and the call fails — but with
numpy's `ValueError` from the negative `np.zeros` dimension, not an
`IterationError`. -/
theorem next_batch_after_exhaustion (cfg : Cfg) (cat : List String)
    (dp : List Entry) (weights : List ℚ) (sqrtFn : ℚ → ℚ) (st : IterSt)
    (cache : Cache) (probeDraw : List Nat) (draws : Nat → List Nat)
    (augment : Bool) (ad : AugDraws) (pr : Mat × Nat) (cache0 : Cache)
    (hbs : 1 ≤ cfg.batch_size)
    (hexh : st.batch_idx = st.num_batches)
    (hnb : st.num_batches = (dp.length + cfg.batch_size - 1) / cfg.batch_size)
    (hpr : getItem cfg cat dp sqrtFn cache 0 probeDraw = some (pr, cache0)) :
    (cfg.batch_size ∣ dp.length →
      nextBatch cfg cat dp weights sqrtFn st cache probeDraw draws augment ad =
        some ((([], [], []), cache0, { st with batch_idx := st.batch_idx + 1 }))) ∧
    (¬ cfg.batch_size ∣ dp.length →
      nextBatch cfg cat dp weights sqrtFn st cache probeDraw draws augment ad =
        none) := by
  constructor
  · intro hdvd
    obtain ⟨q, hq⟩ := hdvd
    have hbi : st.batch_idx = q := by
      rw [hexh, hnb, hq]
      have h1 : cfg.batch_size * q + cfg.batch_size - 1 =
          cfg.batch_size * q + (cfg.batch_size - 1) := by omega
      rw [h1, Nat.mul_add_div (by omega), Nat.div_eq_of_lt (by omega)]
      omega
    have hstart : st.batch_idx * cfg.batch_size = dp.length := by
      rw [hbi, hq]
      ring
    have hend : min ((st.batch_idx + 1) * cfg.batch_size) dp.length = dp.length := by
      have : (st.batch_idx + 1) * cfg.batch_size =
          st.batch_idx * cfg.batch_size + cfg.batch_size := by ring
      omega
    unfold nextBatch numChannel
    rw [hpr]
    simp only [Option.map_some', Option.bind_eq_bind, Option.some_bind]
    rw [if_pos (by omega), hend, hstart, Nat.sub_self]
    show (batchLoop cfg cat dp weights sqrtFn st.idxs (st.batch_idx * cfg.batch_size)
        (matWidth pr.1) draws 0 0 cache0).bind _ = _
    unfold batchLoop
    simp only [Option.some_bind, Option.some.injEq]
    rw [augmentBatch_nil]
    cases augment <;> simp
  · intro hndvd
    have hstart : dp.length < st.batch_idx * cfg.batch_size := by
      rw [hexh, hnb]
      rcases Nat.lt_or_ge ((dp.length + cfg.batch_size - 1) / cfg.batch_size *
          cfg.batch_size) dp.length with hlt | hge
      · exfalso
        have : dp.length + cfg.batch_size - 1 <
            (dp.length + cfg.batch_size - 1) / cfg.batch_size * cfg.batch_size +
              cfg.batch_size := Nat.lt_div_mul_add (by omega)
        omega
      · rcases Nat.eq_or_lt_of_le hge with heq | hlt
        · exfalso
          exact hndvd ⟨(dp.length + cfg.batch_size - 1) / cfg.batch_size,
            heq.trans (Nat.mul_comm _ _)⟩
        · exact hlt
    unfold nextBatch numChannel
    rw [hpr]
    simp only [Option.map_some', Option.bind_eq_bind, Option.some_bind]
    rw [if_neg (by omega)]

/-- Witness for the amended Claim C8 at a concrete exhausted iterator: the
divisible case returns the empty batch with the cursor pushed to 2. -/
theorem next_batch_after_exhaustion_witness :
    (1 : Nat) ∣ 1 ∧
    nextBatch ⟨1, 1, false, false, 10, false, false, 7/10, 13/10, 3/10, 1/200, false, [], [], []⟩
      ["a.1"] [⟨"a.1", "g.npy", [[4, 5, 6]]⟩] [1] (fun x => x) ⟨[0], 1, 1⟩ []
      [0] (fun _ => [0]) true
      ⟨fun _ => 1, fun _ => 0, fun _ => [[1,0,0],[0,1,0],[0,0,1]], fun _ => 1,
       fun _ _ => 0, fun _ _ _ => 0, [0]⟩ =
      some ((([], [], []), [(0, ([[4, 5, 6]], 0))], ⟨[0], 1, 2⟩)) :=
  ⟨⟨1, rfl⟩,
    (next_batch_after_exhaustion
      ⟨1, 1, false, false, 10, false, false, 7/10, 13/10, 3/10, 1/200, false, [], [], []⟩
      ["a.1"] [⟨"a.1", "g.npy", [[4, 5, 6]]⟩] [1] (fun x => x) ⟨[0], 1, 1⟩ []
      [0] (fun _ => [0]) true
      ⟨fun _ => 1, fun _ => 0, fun _ => [[1,0,0],[0,1,0],[0,0,1]], fun _ => 1,
       fun _ _ => 0, fun _ _ _ => 0, [0]⟩
      ([[4, 5, 6]], 0) [(0, ([[4, 5, 6]], 0))]
      (by decide) rfl (by decide) rfl).1 ⟨1, rfl⟩⟩

/-! ## Claim C5: `reset` permits exactly `ceil(n / batch_size)` batches -/

theorem finishItem_succeeds {cfg : Cfg} {sqrtFn : ℚ → ℚ} {draw : List Nat}
    {ps0 : Mat}
    (hnci : cfg.add_n_c_info = false) (hci : cfg.to_categorical_indexes = [])
    (hne : ps0 ≠ []) (hdraw0 : ∀ j ∈ draw, j = 0) :
    ∃ out, finishItem cfg sqrtFn draw ps0 = some out := by
  have h0 : ps0.length ≠ 0 := fun h => hne (List.length_eq_zero.mp h)
  have hri : resampleInd ps0.length draw =
      some (isort (fun a b => decide (a ≤ b)) draw) := by
    unfold resampleInd
    rw [if_neg h0]
  have hall : (isort (fun a b => decide (a ≤ b)) draw).all
      (fun i => decide (i < ps0.length)) = true := by
    refine List.all_eq_true.mpr ?_
    intro i hi
    have hid : i ∈ draw := (isort_perm _ _).mem_iff.mp hi
    have hi0 := hdraw0 i hid
    subst hi0
    simpa using Nat.pos_of_ne_zero h0
  unfold finishItem
  rw [hri]
  simp only [Option.bind_eq_bind, Option.some_bind]
  rw [if_pos hall, hci]
  have hz : List.zip ([] : List Nat) cfg.to_categorical_sizes = [] := rfl
  rw [hz]
  simp only [catSteps, Option.some_bind, hnci, Bool.false_eq_true, if_false]
  exact ⟨_, rfl⟩

theorem decode_ne_nil {cfg : Cfg} {e : Entry} (hnc : cfg.normal_channel = false)
    (hne : e.content ≠ []) : decode cfg e ≠ [] := by
  unfold decode
  rw [hnc]
  simp only [Bool.false_eq_true, if_false]
  simpa using hne

theorem matWidth_of_rows {m : Mat} {w : Nat} (hne : m ≠ [])
    (h : ∀ r ∈ m, r.length = w) : matWidth m = w := by
  cases m with
  | nil => exact absurd rfl hne
  | cons r t => exact h r (by simp)

/-- Under the simple-pipeline configuration (no normals, no positional channel,
no categorical expansion), non-empty ≥3-column point files, resolvable classes
with in-range weight indices and all-zero draws, `_get_item` succeeds on every
valid index, producing `draw.length` rows of width three and preserving the
cache invariant. -/
theorem getItem_succeeds {cfg : Cfg} {cat : List String} {dp : List Entry}
    {weights : List ℚ} {sqrtFn : ℚ → ℚ} {cache : Cache} {idx : Nat}
    {draw : List Nat}
    (hnc : cfg.normal_channel = false) (hnci : cfg.add_n_c_info = false)
    (hci : cfg.to_categorical_indexes = [])
    (hcontent : ∀ e ∈ dp, e.content ≠ [] ∧ ∀ r ∈ e.content, 3 ≤ r.length)
    (hcls : ∀ e ∈ dp, ∃ c, classIdx cat e.cls = some c ∧ c < weights.length)
    (hok : CacheOK cfg cat dp cache)
    (hidx : idx < dp.length)
    (hdraw0 : ∀ j ∈ draw, j = 0) :
    ∃ ps c cache', getItem cfg cat dp sqrtFn cache idx draw = some ((ps, c), cache') ∧
      ps.length = draw.length ∧ (∀ r ∈ ps, r.length = 3) ∧
      c < weights.length ∧ CacheOK cfg cat dp cache' := by
  have hfetch : ∃ s : Mat × Nat × Cache, getItemFetch cfg cat dp cache idx = some s ∧
      (∃ e ∈ dp, s.1 = decode cfg e) ∧ s.2.1 < weights.length := by
    unfold getItemFetch
    cases hcl : cacheLookup cache idx with
    | some v =>
      obtain ⟨ps, c⟩ := v
      obtain ⟨e, he, hdec, hcid⟩ := hok idx ps c hcl
      have hedp : e ∈ dp := by
        obtain ⟨hlt2, hval⟩ := List.getElem?_eq_some.mp he
        rw [← hval]
        exact List.getElem_mem hlt2
      obtain ⟨c', hc', hltw⟩ := hcls e hedp
      rw [hcid] at hc'
      injection hc' with hcc
      subst hcc
      exact ⟨(ps, c, cache), rfl, ⟨e, hedp, hdec⟩, hltw⟩
    | none =>
      have he : dp[idx]? = some dp[idx] := List.getElem?_eq_getElem hidx
      have hedp : dp[idx] ∈ dp := List.getElem_mem hidx
      obtain ⟨c, hc, hltw⟩ := hcls _ hedp
      refine ⟨(decode cfg dp[idx], c,
        if cache.length < cfg.cache_size
          then cache ++ [(idx, (decode cfg dp[idx], c))] else cache), ?_,
        ⟨dp[idx], hedp, rfl⟩, hltw⟩
      rw [he]
      simp only [Option.bind_eq_bind, Option.some_bind]
      rw [hc]
      rfl
  obtain ⟨s, hfeq, ⟨e, hedp, hdec⟩, hltw⟩ := hfetch
  obtain ⟨hcne, hcrows⟩ := hcontent e hedp
  have hrows : ∀ r ∈ s.1, r.length = 3 := by
    rw [hdec]
    exact decode_rows_three hnc hcrows
  have hne1 : s.1 ≠ [] := by
    rw [hdec]
    exact decode_ne_nil hnc hcne
  obtain ⟨out, hfin⟩ := finishItem_succeeds hnci hci hne1 hdraw0
  obtain ⟨hw, hlen, _⟩ := finishItem_width hrows hfin
  have hw3 : ∀ r ∈ out, r.length = 3 := by
    intro r hr
    have := hw r hr
    rw [this]
    simp [outWidth, hci, hnci, hnc, catWidth]
  have hgeq : getItem cfg cat dp sqrtFn cache idx draw = some ((out, s.2.1), s.2.2) := by
    unfold getItem
    rw [hfeq]
    simp only [Option.bind_eq_bind, Option.some_bind]
    rw [hfin]
    rfl
  exact ⟨out, s.2.1, s.2.2, hgeq, hlen, hw3, hltw,
    getItem_preserves_CacheOK hok hgeq⟩

/-- The stacking loop succeeds over any in-range index window of all-zero
draws of length `npoints`, preserving the cache invariant. -/
theorem batchLoop_succeeds {cfg : Cfg} {cat : List String} {dp : List Entry}
    {weights : List ℚ} {sqrtFn : ℚ → ℚ} {idxs : List Nat} {start : Nat}
    {draws : Nat → List Nat}
    (hnc : cfg.normal_channel = false) (hnci : cfg.add_n_c_info = false)
    (hci : cfg.to_categorical_indexes = [])
    (hcontent : ∀ e ∈ dp, e.content ≠ [] ∧ ∀ r ∈ e.content, 3 ≤ r.length)
    (hcls : ∀ e ∈ dp, ∃ c, classIdx cat e.cls = some c ∧ c < weights.length)
    (hdraws : ∀ b, (draws b).length = cfg.npoints ∧ ∀ j ∈ draws b, j = 0)
    (hidxb : ∀ k ∈ idxs, k < dp.length) :
    ∀ (rem i : Nat) (cache : Cache), CacheOK cfg cat dp cache →
      start + i + rem ≤ idxs.length →
      ∃ out cache',
        batchLoop cfg cat dp weights sqrtFn idxs start 3 draws i rem cache =
          some (out, cache') ∧ CacheOK cfg cat dp cache' := by
  intro rem
  induction rem with
  | zero =>
    intro i cache hok _
    exact ⟨([], [], []), cache, rfl, hok⟩
  | succ rem ih =>
    intro i cache hok hwin
    have hlt : start + i < idxs.length := by omega
    have hidxe : idxs[start + i]? = some idxs[start + i] :=
      List.getElem?_eq_getElem hlt
    have hib : idxs[start + i] < dp.length :=
      hidxb _ (List.getElem_mem hlt)
    obtain ⟨ps, c, cache1, hgeq, hplen, hrows, hcw, hok1⟩ :=
      getItem_succeeds hnc hnci hci hcontent hcls hok hib (hdraws i).2
    have hguard : ps.length = cfg.npoints ∧ ∀ row ∈ ps, row.length = 3 :=
      ⟨hplen.trans (hdraws i).1, hrows⟩
    have hwe : weights[c]? = some weights[c] := List.getElem?_eq_getElem hcw
    obtain ⟨out', cache', hrec, hok'⟩ := ih (i + 1) cache1 hok1 (by omega)
    refine ⟨(ps :: out'.1, c :: out'.2.1, weights[c] :: out'.2.2), cache', ?_, hok'⟩
    unfold batchLoop
    rw [hidxe]
    simp only [Option.bind_eq_bind, Option.some_bind]
    rw [hgeq]
    simp only [Option.some_bind]
    rw [if_pos hguard, hwe]
    simp only [Option.some_bind]
    rw [hrec]
    rfl

/-- Under the simple-pipeline hypotheses, `next_batch` succeeds whenever the
cursor is below the batch count, advancing the cursor by exactly one. -/
theorem nextBatch_succeeds {cfg : Cfg} {cat : List String} {dp : List Entry}
    {weights : List ℚ} {sqrtFn : ℚ → ℚ} {probeDraw : List Nat}
    {draws : Nat → List Nat} {augment : Bool} {ad : AugDraws}
    (hbs : 1 ≤ cfg.batch_size) (hnp : 1 ≤ cfg.npoints) (hn : dp ≠ [])
    (hnc : cfg.normal_channel = false) (hnci : cfg.add_n_c_info = false)
    (hci : cfg.to_categorical_indexes = [])
    (hcontent : ∀ e ∈ dp, e.content ≠ [] ∧ ∀ r ∈ e.content, 3 ≤ r.length)
    (hcls : ∀ e ∈ dp, ∃ c, classIdx cat e.cls = some c ∧ c < weights.length)
    (hdraws : ∀ b, (draws b).length = cfg.npoints ∧ ∀ j ∈ draws b, j = 0)
    (hprobe : probeDraw.length = cfg.npoints ∧ ∀ j ∈ probeDraw, j = 0)
    (st : IterSt) (cache : Cache)
    (hok : CacheOK cfg cat dp cache)
    (hlt : st.batch_idx < st.num_batches)
    (hnb : st.num_batches = (dp.length + cfg.batch_size - 1) / cfg.batch_size)
    (hil : st.idxs.length = dp.length)
    (hib : ∀ k ∈ st.idxs, k < dp.length) :
    ∃ out cache',
      nextBatch cfg cat dp weights sqrtFn st cache probeDraw draws augment ad =
        some (out, cache', { st with batch_idx := st.batch_idx + 1 }) ∧
      CacheOK cfg cat dp cache' := by
  have hn0 : 0 < dp.length := by
    cases dp with
    | nil => exact absurd rfl hn
    | cons e t => simp
  obtain ⟨ps, c, cache0, hgeq, hplen, hrows, _, hok0⟩ :=
    getItem_succeeds hnc hnci hci hcontent hcls hok hn0 hprobe.2
  have hpsne : ps ≠ [] := by
    intro h0
    rw [h0] at hplen
    have : probeDraw.length = 0 := hplen.symm
    omega
  have hmw : matWidth ps = 3 := matWidth_of_rows hpsne hrows
  -- the cursor window is inside the data
  have hstartlt : st.batch_idx * cfg.batch_size < dp.length := by
    have h1 : st.batch_idx + 1 ≤ st.num_batches := hlt
    have h2 : (st.batch_idx + 1) * cfg.batch_size ≤
        st.num_batches * cfg.batch_size :=
      Nat.mul_le_mul_right _ h1
    have h3 : st.num_batches * cfg.batch_size ≤ dp.length + cfg.batch_size - 1 := by
      rw [hnb]
      exact Nat.div_mul_le_self _ _
    have h4 : (st.batch_idx + 1) * cfg.batch_size =
        st.batch_idx * cfg.batch_size + cfg.batch_size := by ring
    omega
  have hle : st.batch_idx * cfg.batch_size ≤
      min ((st.batch_idx + 1) * cfg.batch_size) dp.length := by
    have h4 : (st.batch_idx + 1) * cfg.batch_size =
        st.batch_idx * cfg.batch_size + cfg.batch_size := by ring
    omega
  have hwin : st.batch_idx * cfg.batch_size + 0 +
      (min ((st.batch_idx + 1) * cfg.batch_size) dp.length -
        st.batch_idx * cfg.batch_size) ≤ st.idxs.length := by
    rcases Nat.le_total ((st.batch_idx + 1) * cfg.batch_size) dp.length with hc | hc
    · rw [Nat.min_eq_left hc]
      have h4 : (st.batch_idx + 1) * cfg.batch_size =
          st.batch_idx * cfg.batch_size + cfg.batch_size := by ring
      omega
    · rw [Nat.min_eq_right hc]
      omega
  obtain ⟨res, cache', hloop, hok'⟩ :=
    batchLoop_succeeds hnc hnci hci hcontent hcls hdraws hib
      (min ((st.batch_idx + 1) * cfg.batch_size) dp.length -
        st.batch_idx * cfg.batch_size) 0 cache0 hok0 hwin
  refine ⟨((if augment then augmentBatch cfg ad res.1 else res.1),
    res.2.1, res.2.2), cache', ?_, hok'⟩
  unfold nextBatch numChannel
  rw [hgeq]
  simp only [Option.map_some', Option.bind_eq_bind, Option.some_bind]
  rw [if_pos hle, hmw, hloop]
  rfl

theorem runBatches_ok {cfg : Cfg} {cat : List String} {dp : List Entry}
    {weights : List ℚ} {sqrtFn : ℚ → ℚ} {probeDraw : List Nat}
    {draws : Nat → List Nat} {augment : Bool} {ad : AugDraws}
    (hbs : 1 ≤ cfg.batch_size) (hnp : 1 ≤ cfg.npoints) (hn : dp ≠ [])
    (hnc : cfg.normal_channel = false) (hnci : cfg.add_n_c_info = false)
    (hci : cfg.to_categorical_indexes = [])
    (hcontent : ∀ e ∈ dp, e.content ≠ [] ∧ ∀ r ∈ e.content, 3 ≤ r.length)
    (hcls : ∀ e ∈ dp, ∃ c, classIdx cat e.cls = some c ∧ c < weights.length)
    (hdraws : ∀ b, (draws b).length = cfg.npoints ∧ ∀ j ∈ draws b, j = 0)
    (hprobe : probeDraw.length = cfg.npoints ∧ ∀ j ∈ probeDraw, j = 0) :
    ∀ (k : Nat) (st : IterSt) (cache : Cache),
      CacheOK cfg cat dp cache →
      st.num_batches = (dp.length + cfg.batch_size - 1) / cfg.batch_size →
      st.idxs.length = dp.length → (∀ j ∈ st.idxs, j < dp.length) →
      st.batch_idx + k ≤ st.num_batches →
      ∃ cache',
        runBatches cfg cat dp weights sqrtFn probeDraw draws augment ad
          k st cache =
          some (⟨st.idxs, st.num_batches, st.batch_idx + k⟩, cache') ∧
        CacheOK cfg cat dp cache' := by
  intro k
  induction k with
  | zero =>
    intro st cache hok _ _ _ _
    exact ⟨cache, rfl, hok⟩
  | succ k ih =>
    intro st cache hok hnb hil hib hbound
    obtain ⟨out, cache0, heq, hok0⟩ :=
      nextBatch_succeeds hbs hnp hn hnc hnci hci hcontent hcls hdraws hprobe
        st cache hok (by omega) hnb hil hib
    obtain ⟨cache', hrun, hok'⟩ :=
      ih { st with batch_idx := st.batch_idx + 1 } cache0 hok0 hnb hil hib
        (by simp only; omega)
    refine ⟨cache', ?_, hok'⟩
    unfold runBatches
    rw [heq]
    simp only [Option.some_bind]
    have hbk : st.batch_idx + (k + 1) = st.batch_idx + 1 + k := by omega
    rw [hbk]
    exact hrun

/-- Claim C5: `reset()` — in particular after exhaustion, since it reads
nothing of the previous cursor state — sets `num_batches = ceil(n /
batch_size)` and the cursor to zero, and then (under the simple-pipeline
hypotheses that make every `_get_item` succeed) exactly `num_batches`
successive `next_batch` calls succeed: after `k` of them the cursor is `k` and
`has_next_batch()` holds iff `k < num_batches`, so it is true up to the last
permitted call and false after it. -/
theorem reset_gives_ceil_batches (cfg : Cfg) (cat : List String)
    (dp : List Entry) (weights : List ℚ) (sqrtFn : ℚ → ℚ)
    (probeDraw : List Nat) (draws : Nat → List Nat) (augment : Bool)
    (ad : AugDraws) (perm : List Nat)
    (hbs : 1 ≤ cfg.batch_size) (hnp : 1 ≤ cfg.npoints) (hn : dp ≠ [])
    (hnc : cfg.normal_channel = false) (hnci : cfg.add_n_c_info = false)
    (hci : cfg.to_categorical_indexes = [])
    (hcontent : ∀ e ∈ dp, e.content ≠ [] ∧ ∀ r ∈ e.content, 3 ≤ r.length)
    (hcls : ∀ e ∈ dp, ∃ c, classIdx cat e.cls = some c ∧ c < weights.length)
    (hdraws : ∀ b, (draws b).length = cfg.npoints ∧ ∀ j ∈ draws b, j = 0)
    (hprobe : probeDraw.length = cfg.npoints ∧ ∀ j ∈ probeDraw, j = 0)
    (hperm : cfg.shuffle = true → perm.length = dp.length ∧
      ∀ k ∈ perm, k < dp.length) :
    (resetIter cfg dp.length perm).num_batches =
      (dp.length + cfg.batch_size - 1) / cfg.batch_size ∧
    (resetIter cfg dp.length perm).batch_idx = 0 ∧
    ∀ k, k ≤ (resetIter cfg dp.length perm).num_batches →
      ∃ st' cache',
        runBatches cfg cat dp weights sqrtFn probeDraw draws augment ad
          k (resetIter cfg dp.length perm) [] = some (st', cache') ∧
        st'.batch_idx = k ∧
        st'.num_batches = (resetIter cfg dp.length perm).num_batches ∧
        (hasNextBatch st' = true ↔
          k < (resetIter cfg dp.length perm).num_batches) := by
  refine ⟨rfl, rfl, ?_⟩
  intro k hk
  have hil : (resetIter cfg dp.length perm).idxs.length = dp.length := by
    unfold resetIter
    by_cases hs : cfg.shuffle = true
    · simp only [hs, if_true]
      exact (hperm hs).1
    · simp only [hs, Bool.false_eq_true, if_false]
      exact List.length_range _
  have hib : ∀ j ∈ (resetIter cfg dp.length perm).idxs, j < dp.length := by
    unfold resetIter
    by_cases hs : cfg.shuffle = true
    · simp only [hs, if_true]
      exact (hperm hs).2
    · simp only [hs, Bool.false_eq_true, if_false]
      intro j hj
      exact List.mem_range.mp hj
  obtain ⟨cache', hrun, _⟩ :=
    runBatches_ok hbs hnp hn hnc hnci hci hcontent hcls hdraws hprobe
      k (resetIter cfg dp.length perm) [] (CacheOK_nil _ _ _) rfl hil hib
      (by simpa [resetIter] using hk)
  refine ⟨⟨(resetIter cfg dp.length perm).idxs,
    (resetIter cfg dp.length perm).num_batches,
    (resetIter cfg dp.length perm).batch_idx + k⟩, cache', hrun, ?_, rfl, ?_⟩
  · show (resetIter cfg dp.length perm).batch_idx + k = k
    show 0 + k = k
    omega
  · simp only [hasNextBatch, decide_eq_true_eq]
    show 0 + k < _ ↔ k < _
    omega

/-- Witness for Claim C5: one sample, `batch_size = 1`: after `reset`, exactly
one `next_batch` succeeds, leaving the cursor at 1 with `has_next_batch()`
false. -/
theorem reset_gives_ceil_batches_witness :
    ∃ st' cache',
      runBatches ⟨1, 1, false, false, 10, false, false, 7/10, 13/10, 3/10, 1/200, false, [], [], []⟩
        ["a.1"] [⟨"a.1", "f.npy", [[1, 2, 3]]⟩] [1] (fun x => x) [0] (fun _ => [0]) false
        ⟨fun _ => 0, fun _ => 0, fun _ => [], fun _ => 0, fun _ _ => 0, fun _ _ _ => 0, []⟩
        1 (resetIter ⟨1, 1, false, false, 10, false, false, 7/10, 13/10, 3/10, 1/200, false, [], [], []⟩ 1 [0]) [] =
        some (st', cache') ∧
      st'.batch_idx = 1 ∧
      st'.num_batches = (resetIter ⟨1, 1, false, false, 10, false, false, 7/10, 13/10, 3/10, 1/200, false, [], [], []⟩ 1 [0]).num_batches ∧
      (hasNextBatch st' = true ↔
        1 < (resetIter ⟨1, 1, false, false, 10, false, false, 7/10, 13/10, 3/10, 1/200, false, [], [], []⟩ 1 [0]).num_batches) :=
  (reset_gives_ceil_batches
    ⟨1, 1, false, false, 10, false, false, 7/10, 13/10, 3/10, 1/200, false, [], [], []⟩
    ["a.1"] [⟨"a.1", "f.npy", [[1, 2, 3]]⟩] [1] (fun x => x) [0] (fun _ => [0]) false
    ⟨fun _ => 0, fun _ => 0, fun _ => [], fun _ => 0, fun _ _ => 0, fun _ _ _ => 0, []⟩
    [0] (by decide) (by decide) (by decide) rfl rfl rfl (by decide)
    (fun e he => by
      rcases List.mem_singleton.mp he with rfl
      exact ⟨0, rfl, by decide⟩)
    (fun b => ⟨rfl, fun j hj => List.mem_singleton.mp hj⟩)
    ⟨rfl, by decide⟩ (by decide)).2.2 1 (by decide)
